import Mathlib

/-!
Verification of the FF1 format-preserving-encryption library.

The development shallowly embeds the Go sources:
  * `subtle/numeric.go`  — numeral/byte conversions (`numradix` encode/decode),
  * `subtle/ff1.go`      — the FF1 Feistel core (`Encrypt`, `Decrypt`,
    `feistelFunction`, `buildQArray`, `getAESKey`, `NewFF1`),
  * `format.go`          — format mask split / reconstruct, alphabet choice,
  * `numeric.go`         — string ⇄ numeral conversions,
  * `fpe.go`             — the `Tokenize` / `Detokenize` facade.

Byte strings are `List Nat` with entries below 256; numeral sequences are
`List Nat` where Go uses `[]uint16`, so every store through a `uint16` cast
takes `% 65536` and every `uint32` cast takes `% 4294967296`.  The AES block
cipher used by the Feistel round (Go's `crypto/aes`) is implemented from
FIPS-197 below; the core is additionally parameterised over the block-cipher
function so that facts independent of the cipher can be stated as such.
-/

namespace FPE

/-! ## AES (FIPS-197), the block cipher behind `crypto/aes` -/

/-- The AES S-box, packed little-endian: byte `i` of this number is `SBox[i]`. -/
def sboxPacked : Nat :=
0x16bb54b00f2d99416842e6bf0d89a18cdf2855cee9871e9b948ed9691198f8e19e1dc186b95735610ef6034866b53e708a8bbd4b1f74dde8c6b4a61c2e2578ba08ae7a65eaf4566ca94ed58d6d37c8e779e4959162acd3c25c2406490a3a32e0db0b5ede14b8ee4688902a22dc4f816073195d643d7ea7c41744975fec130ccdd2f3ff1021dab6bcf5389d928f40a351a89f3c507f02f94585334d43fbaaefd0cf584c4a39becb6a5bb1fc20ed00d153842fe329b3d63b52a05a6e1b1a2c830975b227ebe28012079a059618c323c7041531d871f1e5a534ccf73f362693fdb7c072a49cafa2d4adf04759fa7dc982ca76abd7fe2b670130c56f6bf27b777c63

/-- S-box lookup. -/
def sboxByte (b : Nat) : Nat := (sboxPacked >>> (8 * b)) % 256

/-- Multiplication by x in GF(2^8) mod x^8+x^4+x^3+x+1. -/
def xtime (b : Nat) : Nat := if b < 128 then 2 * b else Nat.xor (2 * b) 0x11B

/-- Multiplication by 3 in GF(2^8). -/
def gmul3 (b : Nat) : Nat := Nat.xor (xtime b) b

/-- AES round constants. -/
def rconList : List Nat := [1, 2, 4, 8, 0x10, 0x20, 0x40, 0x80, 0x1b, 0x36, 0x6c, 0xd8]

def subWord (w : List Nat) : List Nat := w.map sboxByte

def rotWord (w : List Nat) : List Nat := w.drop 1 ++ w.take 1

def xorWord (a b : List Nat) : List Nat := List.zipWith Nat.xor a b

/-- AES key schedule: the list of 4-byte words `w[0] … w[4*(Nr+1)-1]`. -/
def keyExpansion (key : List Nat) : List (List Nat) :=
  let Nk := key.length / 4
  let Nr := Nk + 6
  let init := (List.range Nk).map (fun i => ((key.drop (4 * i)).take 4))
  (List.range (4 * (Nr + 1) - Nk)).foldl (fun w j =>
    let i := Nk + j
    let prev := w.getD (i - 1) []
    let t :=
      if i % Nk = 0 then
        xorWord (subWord (rotWord prev)) [rconList.getD (i / Nk - 1) 0, 0, 0, 0]
      else if 6 < Nk ∧ i % Nk = 4 then
        subWord prev
      else prev
    w ++ [xorWord (w.getD (i - Nk) []) t]) init

def subBytes (s : List Nat) : List Nat := s.map sboxByte

/-- The `ShiftRows` on the flat 16-byte state (column-major as in FIPS-197). -/
def shiftRows (s : List Nat) : List Nat :=
  [0, 5, 10, 15, 4, 9, 14, 3, 8, 13, 2, 7, 12, 1, 6, 11].map (fun i => s.getD i 0)

def mixCol (a : List Nat) : List Nat :=
  match a with
  | [a0, a1, a2, a3] =>
    [Nat.xor (Nat.xor (Nat.xor (xtime a0) (gmul3 a1)) a2) a3,
     Nat.xor (Nat.xor (Nat.xor a0 (xtime a1)) (gmul3 a2)) a3,
     Nat.xor (Nat.xor (Nat.xor a0 a1) (xtime a2)) (gmul3 a3),
     Nat.xor (Nat.xor (Nat.xor (gmul3 a0) a1) a2) (xtime a3)]
  | _ => a

def mixColumns (s : List Nat) : List Nat :=
  mixCol (s.take 4) ++ mixCol ((s.drop 4).take 4) ++ mixCol ((s.drop 8).take 4) ++
    mixCol ((s.drop 12).take 4)

def addRoundKey (s ks : List Nat) : List Nat := List.zipWith Nat.xor s ks

def roundKeyBytes (w : List (List Nat)) (r : Nat) : List Nat := ((w.drop (4 * r)).take 4).flatten

/-- AES block encryption for a 16/24/32-byte key and a 16-byte block. -/
def aesEncryptBlock (key block : List Nat) : List Nat :=
  let Nk := key.length / 4
  let Nr := Nk + 6
  let w := keyExpansion key
  let s0 := addRoundKey block (roundKeyBytes w 0)
  let sMid := (List.range (Nr - 1)).foldl
    (fun st r => addRoundKey (mixColumns (shiftRows (subBytes st))) (roundKeyBytes w (r + 1))) s0
  addRoundKey (shiftRows (subBytes sMid)) (roundKeyBytes w Nr)

/-! ## `subtle/numeric.go` -/

/-- Number of binary digits of `n` (the loop body of `bitLength`), computed
with structural recursion on a fuel argument so that the kernel can reduce it;
`bitCount_eq` below shows it satisfies the loop's recurrence. -/
def bitCountFuel : Nat → Nat → Nat
  | 0, _ => 0
  | fuel + 1, n => if n = 0 then 0 else bitCountFuel fuel (n / 2) + 1

def bitCount (n : Nat) : Nat := bitCountFuel n n

/-- The `bitLength`: bits needed for `radix - 1`, defined as 1 for `radix ≤ 1`. -/
def bitLength (radix : Nat) : Nat := if radix ≤ 1 then 1 else bitCount (radix - 1)

/-- The `numradixEncode`: big-endian positional value of a numeral sequence. -/
def numradixEncode (numeric : List Nat) (radix : Nat) : Nat :=
  numeric.foldl (fun acc d => acc * radix + d) 0

/-- The `numradixDecode`: exactly `length` base-`radix` digits of `val`, big-endian,
each stored through a `uint16` cast. -/
def numradixDecode (val radix : Nat) : Nat → List Nat
  | 0 => []
  | k + 1 => numradixDecode (val / radix) radix k ++ [val % radix % 65536]

/-- Minimal big-endian byte string of a natural number (`big.Int.Bytes`),
with structural fuel recursion; `natBytes_eq` below gives the recurrence. -/
def natBytesFuel : Nat → Nat → List Nat
  | 0, _ => []
  | fuel + 1, n => if n = 0 then [] else natBytesFuel fuel (n / 256) ++ [n % 256]

def natBytes (n : Nat) : List Nat := natBytesFuel n n

/-- The `numradixToBytes`: the `numradixEncode` value in big-endian bytes,
left-padded with zeros to `⌈n·bitLength(radix)/8⌉` bytes. -/
def numradixToBytes (numeric : List Nat) (radix : Nat) : List Nat :=
  let bytes := natBytes (numradixEncode numeric radix)
  let minBytes := (numeric.length * bitLength radix + 7) / 8
  if bytes.length < minBytes then List.replicate (minBytes - bytes.length) 0 ++ bytes
  else bytes

/-! ## `subtle/ff1.go` -/

/-- The FF1 primitive: a raw key and a tweak. -/
structure FF1 where
  key : List Nat
  tweak : List Nat

/-- The `NewFF1` accepts any key of at least 16 bytes and rejects shorter ones. -/
def NewFF1 (key tweak : List Nat) : Option FF1 :=
  if key.length < 16 then none else some ⟨key, tweak⟩

/-- The `getAESKey`: pass standard sizes through, pad short keys to 16 bytes, and
truncate other lengths down to the next smaller standard size. -/
def getAESKey (key : List Nat) : List Nat :=
  if key.length = 16 ∨ key.length = 24 ∨ key.length = 32 then key
  else if key.length < 16 then key ++ List.replicate (16 - key.length) 0
  else if key.length < 24 then key.take 16
  else if key.length < 32 then key.take 24
  else key.take 32

/-- AES-ECB over a byte string, 16 bytes at a time, with block cipher `bc`;
structural fuel recursion, with the loop recurrence in `ecbEncryptWith_eq`. -/
def ecbFuel (bc : List Nat → List Nat → List Nat) (key : List Nat) :
    Nat → List Nat → List Nat
  | 0, _ => []
  | fuel + 1, data =>
    if data = [] then [] else bc key (data.take 16) ++ ecbFuel bc key fuel (data.drop 16)

def ecbEncryptWith (bc : List Nat → List Nat → List Nat) (key data : List Nat) : List Nat :=
  ecbFuel bc key data.length data

/-- The `buildQArray`: 4 round-number bytes, the tweak, the encoded `B`, zero-padded
to a multiple of the AES block size. -/
def buildQArray (tweak : List Nat) (roundNum : Nat) (B : List Nat) (radix : Nat) : List Nat :=
  let Q := [roundNum % 256, roundNum % 256, roundNum % 256, roundNum % 256] ++ tweak ++
    numradixToBytes B radix
  Q ++ List.replicate ((Q.length + 15) / 16 * 16 - Q.length) 0

/-- The `big.Int.SetBytes`: big-endian bytes to a natural number. -/
def beBytesToNat (bs : List Nat) : Nat := bs.foldl (fun acc b => acc * 256 + b) 0

/-- The `feistelFunction` parameterised over the block cipher.  `u` is the requested
output length; `v` and `n` are passed by the Go code but unused. -/
def feistelWith (bc : List Nat → List Nat → List Nat) (tweak B : List Nat)
    (roundNum u v n radix : Nat) (aesKey : List Nat) : List Nat :=
  if B.length = 0 then List.replicate u 0
  else if ¬(aesKey.length = 16 ∨ aesKey.length = 24 ∨ aesKey.length = 32) then
    -- `aes.NewCipher` fails: the code returns all-zero numerals
    List.replicate u 0
  else
    let Q := buildQArray tweak roundNum B radix
    let Qp := Q ++ List.replicate ((Q.length + 15) / 16 * 16 - Q.length) 0
    let R := ecbEncryptWith bc aesKey Qp
    let d0 := (u * bitLength radix + 7) / 8
    let d1 := if d0 < 1 then 1 else d0
    let d2 := if R.length < d1 then R.length else d1
    let d := if d2 < 8 ∧ 8 ≤ R.length then 8 else d2
    let y := beBytesToNat (R.take d)
    numradixDecode (y % radix ^ u) radix u

/-- The `len(C) != len(A)` fix-up loop of `Encrypt`/`Decrypt`: pad with zeros or
truncate `C` to length `l`. -/
def adjustLen (C : List Nat) (l : Nat) : List Nat :=
  if C.length = l then C
  else (List.range l).map (fun j => if j < C.length then C.getD j 0 else 0)

/-- The `uint32` modulus. -/
def u32 : Nat := 4294967296

/-- The `uint16` modulus. -/
def u16 : Nat := 65536

/-- One forward Feistel round: `A, B ← B, (A + F(B)) mod radix` element-wise,
through `uint32` arithmetic and a `uint16` store. -/
def roundStepWith (bc : List Nat → List Nat → List Nat) (tweak aesKey : List Nat)
    (n radix : Nat) (AB : List Nat × List Nat) (i : Nat) : List Nat × List Nat :=
  let A := AB.1
  let B := AB.2
  let C := adjustLen (feistelWith bc tweak B i A.length B.length n radix aesKey) A.length
  (B, List.zipWith (fun a c => (a + c) % u32 % (radix % u32) % u16) A C)

/-- One reverse Feistel round: `A, B ← (B - F(A)) mod radix, A` element-wise;
the Go subtraction `uint32(B[j]) + uint32(radix) - cVal` wraps modulo `2^32`. -/
def unStepWith (bc : List Nat → List Nat → List Nat) (tweak aesKey : List Nat)
    (n radix : Nat) (AB : List Nat × List Nat) (i : Nat) : List Nat × List Nat :=
  let A := AB.1
  let B := AB.2
  let C := adjustLen (feistelWith bc tweak A i B.length A.length n radix aesKey) B.length
  ((List.range B.length).map (fun j =>
      let c := C.getD (j % C.length) 0
      (B.getD j 0 + radix % u32 + (u32 - c)) % u32 % (radix % u32) % u16),
    A)

/-- Errors of the FF1 core. -/
inductive FF1Error where
  | inputTooLong : FF1Error
  | domainTooSmall : FF1Error
deriving DecidableEq, Repr

/-- The `Encrypt` parameterised over the block cipher. -/
def encryptWith (bc : List Nat → List Nat → List Nat) (f : FF1)
    (plaintext alphabet : List Nat) : Except FF1Error (List Nat) :=
  let radix := alphabet.length
  let n := plaintext.length
  if n = 0 then .ok plaintext
  else if 100000 < n then .error .inputTooLong
  else if radix ^ n < 1000 then .error .domainTooSmall
  else
    let u := n / 2
    let aesKey := getAESKey f.key
    let AB := (List.range 10).foldl (roundStepWith bc f.tweak aesKey n radix)
      (plaintext.take u, plaintext.drop u)
    .ok (AB.1 ++ AB.2)

/-- The `Decrypt` parameterised over the block cipher: the ten rounds in reverse. -/
def decryptWith (bc : List Nat → List Nat → List Nat) (f : FF1)
    (ciphertext alphabet : List Nat) : Except FF1Error (List Nat) :=
  let radix := alphabet.length
  let n := ciphertext.length
  if n = 0 then .ok ciphertext
  else if 100000 < n then .error .inputTooLong
  else if radix ^ n < 1000 then .error .domainTooSmall
  else
    let u := n / 2
    let aesKey := getAESKey f.key
    let AB := (List.range 10).reverse.foldl (unStepWith bc f.tweak aesKey n radix)
      (ciphertext.take u, ciphertext.drop u)
    .ok (AB.1 ++ AB.2)

/-- The `subtle.FF1.Encrypt` with the real AES block cipher. -/
def Encrypt (f : FF1) (plaintext alphabet : List Nat) : Except FF1Error (List Nat) :=
  encryptWith aesEncryptBlock f plaintext alphabet

/-- The `subtle.FF1.Decrypt` with the real AES block cipher. -/
def Decrypt (f : FF1) (ciphertext alphabet : List Nat) : Except FF1Error (List Nat) :=
  decryptWith aesEncryptBlock f ciphertext alphabet

/-- The `subtle.FF1.feistelFunction` with the real AES block cipher. -/
def feistelFunction (f : FF1) (B : List Nat) (roundNum u v n radix : Nat)
    (aesKey : List Nat) : List Nat :=
  feistelWith aesEncryptBlock f.tweak B roundNum u v n radix aesKey

/-! ## `format.go` and `numeric.go`

Strings are modelled as their byte lists; the Go `for … range` loops walk
bytes for the ASCII strings in the library's domain (§1 of the spec limits the
library to ASCII). -/

/-- Data bytes: ASCII alphanumerics. -/
def isAlnumByte (b : Nat) : Bool :=
  decide ((48 ≤ b ∧ b ≤ 57) ∨ (65 ≤ b ∧ b ≤ 90) ∨ (97 ≤ b ∧ b ≤ 122))

def isDigitByte (b : Nat) : Bool := decide (48 ≤ b ∧ b ≤ 57)

def isLetterByte (b : Nat) : Bool := decide ((65 ≤ b ∧ b ≤ 90) ∨ (97 ≤ b ∧ b ≤ 122))

/-- The `SeparateFormatAndData`: the mask is `true` at format (non-alphanumeric)
positions; the data is the subsequence of alphanumeric bytes. -/
def SeparateFormatAndData (s : List Nat) : List Bool × List Nat :=
  (s.map (fun b => !isAlnumByte b), s.filter isAlnumByte)

/-- The bytes of `"0123456789"`. -/
def digitBytes : List Nat := [48, 49, 50, 51, 52, 53, 54, 55, 56, 57]

/-- The bytes of `"ABCDEFGHIJKLMNOPQRSTUVWXYZabcdefghijklmnopqrstuvwxyz"`. -/
def letterBytes : List Nat :=
  [65, 66, 67, 68, 69, 70, 71, 72, 73, 74, 75, 76, 77, 78, 79, 80, 81, 82, 83, 84, 85,
   86, 87, 88, 89, 90,
   97, 98, 99, 100, 101, 102, 103, 104, 105, 106, 107, 108, 109, 110, 111, 112, 113,
   114, 115, 116, 117, 118, 119, 120, 121, 122]

/-- The `DetermineAlphabet`: digits and/or letters according to what occurs in the
input, defaulting to the digits. -/
def DetermineAlphabet (s : List Nat) : List Nat :=
  let alphabet := (if s.any isDigitByte then digitBytes else []) ++
    (if s.any isLetterByte then letterBytes else [])
  if alphabet = [] then digitBytes else alphabet

/-- Index of the last occurrence of `ch` in the alphabet, starting the count at
`i` — the Go code builds a map in a loop, so a later index overwrites an
earlier one. -/
def lookupLast (alphabet : List Nat) (ch : Nat) (i : Nat) : Option Nat :=
  match alphabet with
  | [] => none
  | a :: rest =>
    match lookupLast rest ch (i + 1) with
    | some j => some j
    | none => if a = ch then some i else none

/-- The `StringToNumeric`: map each byte to its alphabet index, `0` if absent. -/
def StringToNumeric (s alphabet : List Nat) : List Nat :=
  s.map (fun ch => (lookupLast alphabet ch 0).getD 0)

/-- The byte written for one numeral: out-of-range numerals fall back to the
first alphabet character. -/
def charOfNumeral (alphabet : List Nat) (v : Nat) : Nat :=
  if v < alphabet.length then alphabet.getD v 0 else alphabet.getD 0 0

/-- The `NumericToString`: write `len` bytes; positions past the numeral sequence
keep the zero byte the Go `make` put there. -/
def NumericToString (numeric alphabet : List Nat) (len : Nat) : List Nat :=
  (List.range len).map (fun i =>
    if h : i < numeric.length then charOfNumeral alphabet (numeric.get ⟨i, h⟩) else 0)

/-- The loop of `ReconstructWithFormat`: walk the mask, copying the original
byte at format positions and consuming data bytes (falling back to `'0'` = 48)
at data positions. -/
def reconstructGo : List Bool → List Nat → List Nat → List Nat
  | [], _, _ => []
  | true :: ms, orig, ds => orig.headD 0 :: reconstructGo ms orig.tail ds
  | false :: ms, orig, [] => 48 :: reconstructGo ms orig.tail []
  | false :: ms, orig, d :: ds => d :: reconstructGo ms orig.tail ds

/-- The `ReconstructWithFormat data formatMask original`. -/
def ReconstructWithFormat (data : List Nat) (formatMask : List Bool)
    (original : List Nat) : List Nat :=
  reconstructGo formatMask original data

/-! ## `fpe.go` — the facade -/

/-- Errors of `Tokenize`/`Detokenize`: the unreachable "no valid alphabet
found" branch, or an error propagated from the FF1 core. -/
inductive TokError where
  | noAlphabet : TokError
  | core : FF1Error → TokError
deriving DecidableEq, Repr

/-- The `Tokenize`: split format from data, pick the alphabet, encrypt the data
numerals, and reassemble. -/
def Tokenize (f : FF1) (plaintext : List Nat) : Except TokError (List Nat) :=
  let formatMask := (SeparateFormatAndData plaintext).1
  let dataChars := (SeparateFormatAndData plaintext).2
  let alphabet := DetermineAlphabet dataChars
  if alphabet.length = 0 then .error .noAlphabet
  else
    match Encrypt f (StringToNumeric dataChars alphabet) alphabet with
    | .error e => .error (.core e)
    | .ok tokenizedNumeric =>
      .ok (ReconstructWithFormat (NumericToString tokenizedNumeric alphabet dataChars.length)
        formatMask plaintext)

/-- The `Detokenize`: the inverse facade; the alphabet comes from the explicit
argument, else from the original-plaintext hint, else from the ciphertext. -/
def Detokenize (f : FF1) (tokenized originalPlaintext alphabetArg : List Nat) :
    Except TokError (List Nat) :=
  let formatMask := (SeparateFormatAndData tokenized).1
  let dataChars := (SeparateFormatAndData tokenized).2
  let alphabet :=
    if alphabetArg = [] then
      if originalPlaintext ≠ [] then
        DetermineAlphabet (SeparateFormatAndData originalPlaintext).2
      else DetermineAlphabet dataChars
    else alphabetArg
  if alphabet.length = 0 then .error .noAlphabet
  else
    match Decrypt f (StringToNumeric dataChars alphabet) alphabet with
    | .error e => .error (.core e)
    | .ok plaintextNumeric =>
      .ok (ReconstructWithFormat (NumericToString plaintextNumeric alphabet dataChars.length)
        formatMask tokenized)

/-- Whether an `Except` result is a success. -/
def exceptIsOk {ε α : Type} : Except ε α → Bool
  | .ok _ => true
  | .error _ => false

/-- The `Encrypt` as a total function on numeral sequences (identity on failure),
used to state that encryption permutes the valid sequences. -/
def encMap (key tweak alphabet : List Nat) (l : List Nat) : List Nat :=
  match Encrypt ⟨key, tweak⟩ l alphabet with
  | .ok y => y
  | .error _ => l

/-- The `Decrypt` as a total function on numeral sequences (identity on failure). -/
def decMap (key tweak alphabet : List Nat) (l : List Nat) : List Nat :=
  match Decrypt ⟨key, tweak⟩ l alphabet with
  | .ok x => x
  | .error _ => l

/-! ## Spec-side definitions for the refinement claim C6 -/

/-- Plain big-endian base-`radix` digits of `c`, exactly `m` of them — the
claim's "(y mod radix^m) written big-endian in base radix", with no `uint16`
truncation. -/
def beDigits (c radix : Nat) : Nat → List Nat
  | 0 => []
  | m + 1 => beDigits (c / radix) radix m ++ [c % radix]

/-- The round function as the claim describes it: `Q` is four round-number
bytes, the tweak, and `numradixToBytes B radix`, zero-padded to a multiple of
16 bytes; `R` is its AES-ECB encryption; `d = ⌈m·bitLength(radix)/8⌉` clamped
to at least 1 and at most `|R|`, then raised to 8 whenever `d < 8 ∧ |R| ≥ 8`;
the result is the `m` big-endian base-`radix` digits of `y mod radix^m` where
`y` is the big-endian integer of the first `d` bytes of `R`. -/
def feistelSpec (bc : List Nat → List Nat → List Nat) (aesKey tweak : List Nat)
    (B : List Nat) (i m radix : Nat) : List Nat :=
  let Qraw := [i % 256, i % 256, i % 256, i % 256] ++ tweak ++ numradixToBytes B radix
  let Q := Qraw ++ List.replicate ((Qraw.length + 15) / 16 * 16 - Qraw.length) 0
  let R := ecbEncryptWith bc aesKey Q
  let d0 := max ((m * bitLength radix + 7) / 8) 1
  let d1 := min d0 R.length
  let d := if d1 < 8 ∧ 8 ≤ R.length then 8 else d1
  beDigits (beBytesToNat (R.take d) % radix ^ m) radix m

/-! ## Theorems -/

/-! ### The fuel-based definitions satisfy the source loops' recurrences -/

theorem bitCountFuel_congr (f1 : Nat) : ∀ f2 n, n ≤ f1 → n ≤ f2 →
    bitCountFuel f1 n = bitCountFuel f2 n := by
  induction f1 with
  | zero =>
    intro f2 n h1 _
    interval_cases n
    cases f2 <;> simp [bitCountFuel]
  | succ f1 ih =>
    intro f2 n h1 h2
    by_cases hn : n = 0
    · cases f2 <;> simp [bitCountFuel, hn]
    · have hpos : 0 < n := Nat.pos_of_ne_zero hn
      obtain ⟨f2', rfl⟩ : ∃ k, f2 = k + 1 := ⟨f2 - 1, by omega⟩
      have hd : n / 2 < n := Nat.div_lt_self hpos (by decide)
      simp only [bitCountFuel, if_neg hn]
      rw [ih f2' (n / 2) (by omega) (by omega)]

/-- The `bitCount` satisfies the `for n > 0 { bits++; n >>= 1 }` recurrence. -/
theorem bitCount_eq (n : Nat) : bitCount n = if n = 0 then 0 else bitCount (n / 2) + 1 := by
  by_cases hn : n = 0
  · simp [hn, bitCount, bitCountFuel]
  · have hpos : 0 < n := Nat.pos_of_ne_zero hn
    have hd : n / 2 < n := Nat.div_lt_self hpos (by decide)
    obtain ⟨m, rfl⟩ : ∃ m, n = m + 1 := ⟨n - 1, by omega⟩
    simp only [bitCount, bitCountFuel, if_neg hn]
    rw [bitCountFuel_congr m ((m + 1) / 2) ((m + 1) / 2) (by omega) le_rfl]

theorem natBytesFuel_congr (f1 : Nat) : ∀ f2 n, n ≤ f1 → n ≤ f2 →
    natBytesFuel f1 n = natBytesFuel f2 n := by
  induction f1 with
  | zero =>
    intro f2 n h1 _
    interval_cases n
    cases f2 <;> simp [natBytesFuel]
  | succ f1 ih =>
    intro f2 n h1 h2
    by_cases hn : n = 0
    · cases f2 <;> simp [natBytesFuel, hn]
    · have hpos : 0 < n := Nat.pos_of_ne_zero hn
      obtain ⟨f2', rfl⟩ : ∃ k, f2 = k + 1 := ⟨f2 - 1, by omega⟩
      have hd : n / 256 < n := Nat.div_lt_self hpos (by decide)
      simp only [natBytesFuel, if_neg hn]
      rw [ih f2' (n / 256) (by omega) (by omega)]

/-- The `natBytes` satisfies the big-endian byte recurrence of `big.Int.Bytes`. -/
theorem natBytes_eq (n : Nat) :
    natBytes n = if n = 0 then [] else natBytes (n / 256) ++ [n % 256] := by
  by_cases hn : n = 0
  · simp [hn, natBytes, natBytesFuel]
  · have hpos : 0 < n := Nat.pos_of_ne_zero hn
    have hd : n / 256 < n := Nat.div_lt_self hpos (by decide)
    obtain ⟨m, rfl⟩ : ∃ m, n = m + 1 := ⟨n - 1, by omega⟩
    simp only [natBytes, natBytesFuel, if_neg hn]
    rw [natBytesFuel_congr m ((m + 1) / 256) ((m + 1) / 256) (by omega) le_rfl]

theorem ecbFuel_congr (bc : List Nat → List Nat → List Nat) (key : List Nat) (f1 : Nat) :
    ∀ f2 (data : List Nat), data.length ≤ f1 → data.length ≤ f2 →
    ecbFuel bc key f1 data = ecbFuel bc key f2 data := by
  induction f1 with
  | zero =>
    intro f2 data h1 _
    have : data = [] := List.length_eq_zero.mp (by omega)
    subst this
    cases f2 <;> simp [ecbFuel]
  | succ f1 ih =>
    intro f2 data h1 h2
    by_cases hd : data = []
    · cases f2 <;> simp [ecbFuel, hd]
    · have hpos : 0 < data.length := List.length_pos.mpr hd
      obtain ⟨f2', rfl⟩ : ∃ k, f2 = k + 1 := ⟨f2 - 1, by omega⟩
      simp only [ecbFuel, if_neg hd]
      rw [ih f2' (data.drop 16) (by simp [List.length_drop]; omega)
        (by simp [List.length_drop]; omega)]

/-- The `ecbEncryptWith` satisfies the block-by-block ECB loop recurrence. -/
theorem ecbEncryptWith_eq (bc : List Nat → List Nat → List Nat) (key data : List Nat) :
    ecbEncryptWith bc key data =
      if data = [] then []
      else bc key (data.take 16) ++ ecbEncryptWith bc key (data.drop 16) := by
  by_cases hd : data = []
  · simp [hd, ecbEncryptWith, ecbFuel]
  · have hpos : 0 < data.length := List.length_pos.mpr hd
    obtain ⟨m, hm⟩ : ∃ m, data.length = m + 1 := ⟨data.length - 1, by omega⟩
    simp only [ecbEncryptWith, hm, ecbFuel, if_neg hd]
    rw [ecbFuel_congr bc key m ((data.drop 16).length) (data.drop 16)
      (by simp [List.length_drop]; omega) le_rfl]

/-! ### Shape and range of the Feistel round function -/

theorem numradixDecode_length (val radix k : Nat) :
    (numradixDecode val radix k).length = k := by
  induction k generalizing val with
  | zero => rfl
  | succ k ih => simp [numradixDecode, ih]

theorem numradixDecode_lt_u16 (val radix k : Nat) :
    ∀ x ∈ numradixDecode val radix k, x < 65536 := by
  induction k generalizing val with
  | zero => simp [numradixDecode]
  | succ k ih =>
    intro x hx
    simp only [numradixDecode, List.mem_append, List.mem_singleton] at hx
    rcases hx with hx | rfl
    · exact ih _ x hx
    · exact Nat.mod_lt _ (by decide)

theorem numradixDecode_lt_radix (val radix k : Nat) (hr : 0 < radix) :
    ∀ x ∈ numradixDecode val radix k, x < radix := by
  induction k generalizing val with
  | zero => simp [numradixDecode]
  | succ k ih =>
    intro x hx
    simp only [numradixDecode, List.mem_append, List.mem_singleton] at hx
    rcases hx with hx | rfl
    · exact ih _ x hx
    · exact Nat.lt_of_le_of_lt (Nat.mod_le _ _) (Nat.mod_lt _ hr)

theorem feistelWith_length (bc : List Nat → List Nat → List Nat) (tweak B : List Nat)
    (i u v n radix : Nat) (aesKey : List Nat) :
    (feistelWith bc tweak B i u v n radix aesKey).length = u := by
  unfold feistelWith
  split
  · simp
  · split
    · simp
    · simp [numradixDecode_length]

theorem feistelWith_lt_u16 (bc : List Nat → List Nat → List Nat) (tweak B : List Nat)
    (i u v n radix : Nat) (aesKey : List Nat) :
    ∀ x ∈ feistelWith bc tweak B i u v n radix aesKey, x < 65536 := by
  unfold feistelWith
  split
  · simp
  · split
    · simp
    · exact numradixDecode_lt_u16 _ _ _

theorem feistelWith_lt_radix (bc : List Nat → List Nat → List Nat) (tweak B : List Nat)
    (i u v n radix : Nat) (aesKey : List Nat) (hr : 0 < radix) :
    ∀ x ∈ feistelWith bc tweak B i u v n radix aesKey, x < radix := by
  unfold feistelWith
  split
  · simp [hr]
  · split
    · simp [hr]
    · exact numradixDecode_lt_radix _ _ _ hr

theorem adjustLen_length (C : List Nat) (l : Nat) : (adjustLen C l).length = l := by
  unfold adjustLen
  split
  · assumption
  · simp

theorem adjustLen_of_length (C : List Nat) (l : Nat) (h : C.length = l) :
    adjustLen C l = C := by
  simp [adjustLen, h]

/-! ### Arithmetic of one Feistel round -/

theorem mod_roundtrip_sub (a c r : Nat) (ha : a < r) (hc : c < r) :
    ((a + c) % r + r - c) % r = a := by
  rcases Nat.lt_or_ge (a + c) r with h | h
  · rw [Nat.mod_eq_of_lt h]
    have he : a + c + r - c = a + r := by omega
    rw [he, Nat.add_mod_right, Nat.mod_eq_of_lt ha]
  · have h2 : (a + c) % r = a + c - r := by
      rw [Nat.mod_eq_sub_mod h, Nat.mod_eq_of_lt (by omega)]
    have he : a + c - r + r - c = a := by omega
    rw [h2, he, Nat.mod_eq_of_lt ha]

theorem mod_roundtrip_add (b c r : Nat) (hb : b < r) (hc : c < r) :
    ((b + r - c) % r + c) % r = b := by
  rcases Nat.lt_or_ge b c with h | h
  · have h1 : (b + r - c) % r = b + r - c := Nat.mod_eq_of_lt (by omega)
    have he : b + r - c + c = b + r := by omega
    rw [h1, he, Nat.add_mod_right, Nat.mod_eq_of_lt hb]
  · have h1 : (b + r - c) % r = b - c := by
      have e1 : b + r - c = b - c + r := by omega
      rw [e1, Nat.add_mod_right, Nat.mod_eq_of_lt (by omega)]
    have he : b - c + c = b := by omega
    rw [h1, he, Nat.mod_eq_of_lt hb]

theorem mem_zipWith_imp {α β γ : Type} (f : α → β → γ) (P : γ → Prop)
    (h : ∀ a b, P (f a b)) :
    ∀ (l1 : List α) (l2 : List β), ∀ x ∈ List.zipWith f l1 l2, P x := by
  intro l1
  induction l1 with
  | nil => simp
  | cons a l1 ih =>
    intro l2
    cases l2 with
    | nil => simp
    | cons b l2 =>
      intro x hx
      simp only [List.zipWith_cons_cons, List.mem_cons] at hx
      rcases hx with rfl | hx
      · exact h a b
      · exact ih l2 x hx

/-! ### One forward/backward round -/

theorem roundStep_fst (bc : List Nat → List Nat → List Nat) (tweak aesKey : List Nat)
    (n radix : Nat) (AB : List Nat × List Nat) (i : Nat) :
    (roundStepWith bc tweak aesKey n radix AB i).1 = AB.2 := rfl

theorem roundStep_snd_length (bc : List Nat → List Nat → List Nat) (tweak aesKey : List Nat)
    (n radix : Nat) (AB : List Nat × List Nat) (i : Nat) :
    (roundStepWith bc tweak aesKey n radix AB i).2.length = AB.1.length := by
  simp [roundStepWith, List.length_zipWith, adjustLen_length]

theorem roundStep_snd_mem (bc : List Nat → List Nat → List Nat) (tweak aesKey : List Nat)
    (n radix : Nat) (AB : List Nat × List Nat) (i : Nat)
    (hr : 0 < radix) (hru : radix < 4294967296) :
    ∀ x ∈ (roundStepWith bc tweak aesKey n radix AB i).2, x < radix := by
  have hmod : radix % u32 = radix := Nat.mod_eq_of_lt (by simpa [u32] using hru)
  refine mem_zipWith_imp _ _ (fun a c => ?_) _ _
  rw [hmod]
  exact Nat.lt_of_le_of_lt (Nat.mod_le _ _) (Nat.mod_lt _ hr)

theorem unStep_snd (bc : List Nat → List Nat → List Nat) (tweak aesKey : List Nat)
    (n radix : Nat) (AB : List Nat × List Nat) (i : Nat) :
    (unStepWith bc tweak aesKey n radix AB i).2 = AB.1 := rfl

theorem unStep_fst_length (bc : List Nat → List Nat → List Nat) (tweak aesKey : List Nat)
    (n radix : Nat) (AB : List Nat × List Nat) (i : Nat) :
    (unStepWith bc tweak aesKey n radix AB i).1.length = AB.2.length := by
  simp [unStepWith]

theorem unStep_fst_mem (bc : List Nat → List Nat → List Nat) (tweak aesKey : List Nat)
    (n radix : Nat) (AB : List Nat × List Nat) (i : Nat)
    (hr : 0 < radix) (hru : radix < 4294967296) :
    ∀ x ∈ (unStepWith bc tweak aesKey n radix AB i).1, x < radix := by
  have hmod : radix % u32 = radix := Nat.mod_eq_of_lt (by simpa [u32] using hru)
  intro x hx
  simp only [unStepWith, List.mem_map, List.mem_range] at hx
  obtain ⟨j, _, rfl⟩ := hx
  rw [hmod]
  exact Nat.lt_of_le_of_lt (Nat.mod_le _ _) (Nat.mod_lt _ hr)

theorem round_entry_inverse (a c radix : Nat) (hr : 0 < radix) (h16 : radix ≤ 65536)
    (ha : a < radix) (hc : c < radix) :
    ((a + c) % u32 % (radix % u32) % u16 + radix % u32 + (u32 - c)) % u32 % (radix % u32) % u16
      = a := by
  have hmod : radix % u32 = radix := Nat.mod_eq_of_lt (by simp only [u32]; omega)
  rw [hmod]
  have hac : (a + c) % u32 = a + c := Nat.mod_eq_of_lt (by simp only [u32]; omega)
  rw [hac]
  have hs : (a + c) % radix < radix := Nat.mod_lt _ hr
  have h1 : (a + c) % radix % u16 = (a + c) % radix :=
    Nat.mod_eq_of_lt (by simp only [u16]; omega)
  rw [h1]
  have h2 : ((a + c) % radix + radix + (u32 - c)) % u32 = (a + c) % radix + radix - c := by
    have e : (a + c) % radix + radix + (u32 - c) = (a + c) % radix + radix - c + u32 := by
      simp only [u32]; omega
    rw [e, Nat.add_mod_right, Nat.mod_eq_of_lt (by simp only [u32]; omega)]
  rw [h2, mod_roundtrip_sub a c radix ha hc, Nat.mod_eq_of_lt (by simp only [u16]; omega)]

theorem unstep_entry_inverse (b c radix : Nat) (hr : 0 < radix) (h16 : radix ≤ 65536)
    (hb : b < radix) (hc : c < radix) :
    (((b + radix % u32 + (u32 - c)) % u32 % (radix % u32) % u16 + c) % u32 % (radix % u32)) % u16
      = b := by
  have hmod : radix % u32 = radix := Nat.mod_eq_of_lt (by simp only [u32]; omega)
  rw [hmod]
  have h2 : (b + radix + (u32 - c)) % u32 = b + radix - c := by
    have e : b + radix + (u32 - c) = b + radix - c + u32 := by
      simp only [u32]; omega
    rw [e, Nat.add_mod_right, Nat.mod_eq_of_lt (by simp only [u32]; omega)]
  rw [h2]
  have hs : (b + radix - c) % radix < radix := Nat.mod_lt _ hr
  have h3 : (b + radix - c) % radix % u16 = (b + radix - c) % radix :=
    Nat.mod_eq_of_lt (by simp only [u16]; omega)
  rw [h3]
  have h4 : ((b + radix - c) % radix + c) % u32 = (b + radix - c) % radix + c :=
    Nat.mod_eq_of_lt (by simp only [u32]; omega)
  rw [h4, mod_roundtrip_add b c radix hb hc, Nat.mod_eq_of_lt (by simp only [u16]; omega)]

/-- Undoing one forward round with the matching backward round recovers the
state, as long as the left half is already reduced modulo the radix. -/
theorem unStep_roundStep (bc : List Nat → List Nat → List Nat) (tweak aesKey : List Nat)
    (n radix : Nat) (AB : List Nat × List Nat) (i : Nat)
    (hr : 0 < radix) (h16 : radix ≤ 65536)
    (hA : ∀ x ∈ AB.1, x < radix) :
    unStepWith bc tweak aesKey n radix (roundStepWith bc tweak aesKey n radix AB i) i = AB := by
  obtain ⟨A, B⟩ := AB
  simp only at hA
  set F := feistelWith bc tweak B i A.length B.length n radix aesKey with hFdef
  have hFlen : F.length = A.length := feistelWith_length _ _ _ _ _ _ _ _ _
  have hFC : adjustLen F A.length = F := adjustLen_of_length _ _ hFlen
  have hFr : ∀ x ∈ F, x < radix := feistelWith_lt_radix _ _ _ _ _ _ _ _ _ hr
  have hstep : roundStepWith bc tweak aesKey n radix (A, B) i =
      (B, List.zipWith (fun a c => (a + c) % u32 % (radix % u32) % u16) A F) := by
    simp only [roundStepWith]
    rw [hFC]
  rw [hstep]
  have hnewBlen : (List.zipWith (fun a c => (a + c) % u32 % (radix % u32) % u16) A F).length
      = A.length := by
    simp [List.length_zipWith, hFlen]
  simp only [unStepWith]
  simp only [hnewBlen, hFC]
  refine Prod.ext ?_ rfl
  simp only
  apply List.ext_getElem
  · simp
  · intro j hj1 hj2
    have hjA : j < A.length := by simpa using hj2
    have hjF : j < F.length := by omega
    have hjB : j < (List.zipWith (fun a c => (a + c) % u32 % (radix % u32) % u16) A F).length :=
      by omega
    simp only [List.getElem_map, List.getElem_range]
    rw [List.getD_eq_getElem _ 0 hjB, hFlen, Nat.mod_eq_of_lt hjA,
      List.getD_eq_getElem F 0 hjF, List.getElem_zipWith]
    exact round_entry_inverse (A[j]) (F[j]) radix hr h16
      (hA _ (List.getElem_mem hjA)) (hFr _ (List.getElem_mem hjF))

/-- Redoing one forward round after the matching backward round recovers the
state, as long as the right half is already reduced modulo the radix. -/
theorem roundStep_unStep (bc : List Nat → List Nat → List Nat) (tweak aesKey : List Nat)
    (n radix : Nat) (AB : List Nat × List Nat) (i : Nat)
    (hr : 0 < radix) (h16 : radix ≤ 65536)
    (hB : ∀ x ∈ AB.2, x < radix) :
    roundStepWith bc tweak aesKey n radix (unStepWith bc tweak aesKey n radix AB i) i = AB := by
  obtain ⟨A, B⟩ := AB
  simp only at hB
  set F := feistelWith bc tweak A i B.length A.length n radix aesKey with hFdef
  have hFlen : F.length = B.length := feistelWith_length _ _ _ _ _ _ _ _ _
  have hFC : adjustLen F B.length = F := adjustLen_of_length _ _ hFlen
  have hFr : ∀ x ∈ F, x < radix := feistelWith_lt_radix _ _ _ _ _ _ _ _ _ hr
  have hstep : unStepWith bc tweak aesKey n radix (A, B) i =
      ((List.range B.length).map (fun j =>
        (B.getD j 0 + radix % u32 + (u32 - F.getD (j % F.length) 0)) % u32 %
          (radix % u32) % u16), A) := by
    simp only [unStepWith]
    rw [hFC]
  rw [hstep]
  have holdAlen : ((List.range B.length).map (fun j =>
      (B.getD j 0 + radix % u32 + (u32 - F.getD (j % F.length) 0)) % u32 %
        (radix % u32) % u16)).length = B.length := by simp
  simp only [roundStepWith]
  simp only [holdAlen, hFC]
  refine Prod.ext rfl ?_
  simp only
  apply List.ext_getElem
  · simp [List.length_zipWith, hFlen]
  · intro j hj1 hj2
    have hjB : j < B.length := by simpa using hj2
    have hjF : j < F.length := by omega
    rw [List.getElem_zipWith]
    simp only [List.getElem_map, List.getElem_range]
    have hmodj : j % F.length = j := by rw [hFlen]; exact Nat.mod_eq_of_lt hjB
    rw [List.getD_eq_getElem B 0 hjB, hmodj, List.getD_eq_getElem F 0 hjF]
    exact unstep_entry_inverse (B[j]) (F[j]) radix hr h16
      (hB _ (List.getElem_mem hjB)) (hFr _ (List.getElem_mem hjF))

/-! ### The ten-round folds -/

theorem foldl_roundStep_inv (bc : List Nat → List Nat → List Nat) (tweak aesKey : List Nat)
    (n radix : Nat) (hr : 0 < radix) (h16 : radix ≤ 65536) (rs : List Nat) :
    ∀ AB : List Nat × List Nat, (∀ x ∈ AB.1, x < radix) → (∀ x ∈ AB.2, x < radix) →
    List.foldl (unStepWith bc tweak aesKey n radix)
      (List.foldl (roundStepWith bc tweak aesKey n radix) AB rs) rs.reverse = AB := by
  induction rs with
  | nil => intro AB _ _; rfl
  | cons i rs ih =>
    intro AB hA hB
    have hru : radix < 4294967296 := by omega
    simp only [List.foldl_cons, List.reverse_cons, List.foldl_append, List.foldl_nil]
    rw [ih (roundStepWith bc tweak aesKey n radix AB i)
      (by rw [roundStep_fst]; exact hB)
      (roundStep_snd_mem bc tweak aesKey n radix AB i hr hru)]
    exact unStep_roundStep bc tweak aesKey n radix AB i hr h16 hA

theorem foldl_unStep_inv (bc : List Nat → List Nat → List Nat) (tweak aesKey : List Nat)
    (n radix : Nat) (hr : 0 < radix) (h16 : radix ≤ 65536) (rs : List Nat) :
    ∀ AB : List Nat × List Nat, (∀ x ∈ AB.1, x < radix) → (∀ x ∈ AB.2, x < radix) →
    List.foldl (roundStepWith bc tweak aesKey n radix)
      (List.foldl (unStepWith bc tweak aesKey n radix) AB rs) rs.reverse = AB := by
  induction rs with
  | nil => intro AB _ _; rfl
  | cons i rs ih =>
    intro AB hA hB
    have hru : radix < 4294967296 := by omega
    simp only [List.foldl_cons, List.reverse_cons, List.foldl_append, List.foldl_nil]
    rw [ih (unStepWith bc tweak aesKey n radix AB i)
      (unStep_fst_mem bc tweak aesKey n radix AB i hr hru)
      (by rw [unStep_snd]; exact hA)]
    exact roundStep_unStep bc tweak aesKey n radix AB i hr h16 hB

theorem foldl_roundStep_lengths (bc : List Nat → List Nat → List Nat) (tweak aesKey : List Nat)
    (n radix : Nat) (rs : List Nat) :
    ∀ AB : List Nat × List Nat,
    ((List.foldl (roundStepWith bc tweak aesKey n radix) AB rs).1.length,
      (List.foldl (roundStepWith bc tweak aesKey n radix) AB rs).2.length) =
      if rs.length % 2 = 0 then (AB.1.length, AB.2.length)
      else (AB.2.length, AB.1.length) := by
  induction rs with
  | nil => simp
  | cons i rs ih =>
    intro AB
    simp only [List.foldl_cons]
    rw [ih (roundStepWith bc tweak aesKey n radix AB i)]
    have h1 : (roundStepWith bc tweak aesKey n radix AB i).1.length = AB.2.length := by
      rw [roundStep_fst]
    have h2 := roundStep_snd_length bc tweak aesKey n radix AB i
    simp only [List.length_cons, h1, h2]
    by_cases hp : rs.length % 2 = 0
    · rw [if_pos hp, if_neg (by omega)]
    · rw [if_neg hp, if_pos (by omega)]

theorem foldl_unStep_lengths (bc : List Nat → List Nat → List Nat) (tweak aesKey : List Nat)
    (n radix : Nat) (rs : List Nat) :
    ∀ AB : List Nat × List Nat,
    ((List.foldl (unStepWith bc tweak aesKey n radix) AB rs).1.length,
      (List.foldl (unStepWith bc tweak aesKey n radix) AB rs).2.length) =
      if rs.length % 2 = 0 then (AB.1.length, AB.2.length)
      else (AB.2.length, AB.1.length) := by
  induction rs with
  | nil => simp
  | cons i rs ih =>
    intro AB
    simp only [List.foldl_cons]
    rw [ih (unStepWith bc tweak aesKey n radix AB i)]
    have h1 := unStep_fst_length bc tweak aesKey n radix AB i
    have h2 : (unStepWith bc tweak aesKey n radix AB i).2.length = AB.1.length := by
      rw [unStep_snd]
    simp only [List.length_cons, h1, h2]
    by_cases hp : rs.length % 2 = 0
    · rw [if_pos hp, if_neg (by omega)]
    · rw [if_neg hp, if_pos (by omega)]

theorem foldl_roundStep_mem (bc : List Nat → List Nat → List Nat) (tweak aesKey : List Nat)
    (n radix : Nat) (hr : 0 < radix) (hru : radix < 4294967296) (rs : List Nat) :
    ∀ AB : List Nat × List Nat, (∀ x ∈ AB.1, x < radix) → (∀ x ∈ AB.2, x < radix) →
    (∀ x ∈ (List.foldl (roundStepWith bc tweak aesKey n radix) AB rs).1, x < radix) ∧
    (∀ x ∈ (List.foldl (roundStepWith bc tweak aesKey n radix) AB rs).2, x < radix) := by
  induction rs with
  | nil => intro AB hA hB; exact ⟨hA, hB⟩
  | cons i rs ih =>
    intro AB hA hB
    simp only [List.foldl_cons]
    exact ih (roundStepWith bc tweak aesKey n radix AB i)
      (by rw [roundStep_fst]; exact hB)
      (roundStep_snd_mem bc tweak aesKey n radix AB i hr hru)

theorem foldl_unStep_mem (bc : List Nat → List Nat → List Nat) (tweak aesKey : List Nat)
    (n radix : Nat) (hr : 0 < radix) (hru : radix < 4294967296) (rs : List Nat) :
    ∀ AB : List Nat × List Nat, (∀ x ∈ AB.1, x < radix) → (∀ x ∈ AB.2, x < radix) →
    (∀ x ∈ (List.foldl (unStepWith bc tweak aesKey n radix) AB rs).1, x < radix) ∧
    (∀ x ∈ (List.foldl (unStepWith bc tweak aesKey n radix) AB rs).2, x < radix) := by
  induction rs with
  | nil => intro AB hA hB; exact ⟨hA, hB⟩
  | cons i rs ih =>
    intro AB hA hB
    simp only [List.foldl_cons]
    exact ih (unStepWith bc tweak aesKey n radix AB i)
      (unStep_fst_mem bc tweak aesKey n radix AB i hr hru)
      (by rw [unStep_snd]; exact hA)

/-! ### Round-trip of the FF1 core -/

theorem encrypt_ok_decrypt (bc : List Nat → List Nat → List Nat) (f : FF1)
    (X alphabet : List Nat) (hne : X ≠ []) (hlen : X.length ≤ 100000)
    (hdom : 1000 ≤ alphabet.length ^ X.length) (h16 : alphabet.length ≤ 65536)
    (hX : ∀ x ∈ X, x < alphabet.length) :
    ∃ Y, encryptWith bc f X alphabet = .ok Y ∧ Y.length = X.length ∧
      (∀ y ∈ Y, y < alphabet.length) ∧ decryptWith bc f Y alphabet = .ok X := by
  have hn0 : ¬(X.length = 0) := fun h => hne (List.length_eq_zero.mp h)
  have hr : 0 < alphabet.length := by
    rcases Nat.eq_zero_or_pos alphabet.length with h0 | h
    · rw [h0, Nat.zero_pow (Nat.pos_of_ne_zero hn0)] at hdom; omega
    · exact h
  have hru : alphabet.length < 4294967296 := by omega
  set radix := alphabet.length with hradix
  set u := X.length / 2 with hu
  set S := List.foldl (roundStepWith bc f.tweak (getAESKey f.key) X.length radix)
    (X.take u, X.drop u) (List.range 10) with hS
  have huA : (X.take u).length = u := by
    simp [List.length_take]; omega
  have huB : (X.drop u).length = X.length - u := by simp
  have hSlen := foldl_roundStep_lengths bc f.tweak (getAESKey f.key) X.length radix
    (List.range 10) (X.take u, X.drop u)
  rw [if_pos (by simp)] at hSlen
  have hS1 : S.1.length = u := by
    have := congrArg Prod.fst hSlen
    simpa [← hS, huA] using this
  have hS2 : S.2.length = X.length - u := by
    have := congrArg Prod.snd hSlen
    simpa [← hS, huB] using this
  have hmemS := foldl_roundStep_mem bc f.tweak (getAESKey f.key) X.length radix hr hru
    (List.range 10) (X.take u, X.drop u)
    (fun x hx => hX x (List.take_subset u X hx))
    (fun x hx => hX x (List.drop_subset u X hx))
  rw [← hS] at hmemS
  have hE : encryptWith bc f X alphabet = .ok (S.1 ++ S.2) := by
    simp only [encryptWith]
    rw [if_neg hn0, if_neg (by omega), if_neg (Nat.not_lt.mpr hdom)]
  have hYlen : (S.1 ++ S.2).length = X.length := by
    simp [hS1, hS2]; omega
  have hT : List.foldl (unStepWith bc f.tweak (getAESKey f.key) X.length radix)
      S (List.range 10).reverse = (X.take u, X.drop u) := by
    rw [hS]
    exact foldl_roundStep_inv bc f.tweak (getAESKey f.key) X.length radix hr h16
      (List.range 10) (X.take u, X.drop u)
      (fun x hx => hX x (List.take_subset u X hx))
      (fun x hx => hX x (List.drop_subset u X hx))
  have hD : decryptWith bc f (S.1 ++ S.2) alphabet = .ok X := by
    simp only [decryptWith]
    rw [if_neg (by rw [hYlen]; exact hn0), if_neg (by rw [hYlen]; omega),
      if_neg (by rw [hYlen]; exact Nat.not_lt.mpr hdom)]
    rw [hYlen]
    rw [show (S.1 ++ S.2).take (X.length / 2) = S.1 by
      rw [← hu, ← hS1]; exact List.take_left S.1 S.2]
    rw [show (S.1 ++ S.2).drop (X.length / 2) = S.2 by
      rw [← hu, ← hS1]; exact List.drop_left S.1 S.2]
    rw [Prod.mk.eta, hT, List.take_append_drop]
  refine ⟨S.1 ++ S.2, hE, hYlen, ?_, hD⟩
  intro y hy
  rcases List.mem_append.mp hy with hy | hy
  · exact hmemS.1 y hy
  · exact hmemS.2 y hy

theorem decrypt_ok_encrypt (bc : List Nat → List Nat → List Nat) (f : FF1)
    (Y alphabet : List Nat) (hne : Y ≠ []) (hlen : Y.length ≤ 100000)
    (hdom : 1000 ≤ alphabet.length ^ Y.length) (h16 : alphabet.length ≤ 65536)
    (hY : ∀ y ∈ Y, y < alphabet.length) :
    ∃ X, decryptWith bc f Y alphabet = .ok X ∧ X.length = Y.length ∧
      (∀ x ∈ X, x < alphabet.length) ∧ encryptWith bc f X alphabet = .ok Y := by
  have hn0 : ¬(Y.length = 0) := fun h => hne (List.length_eq_zero.mp h)
  have hr : 0 < alphabet.length := by
    rcases Nat.eq_zero_or_pos alphabet.length with h0 | h
    · rw [h0, Nat.zero_pow (Nat.pos_of_ne_zero hn0)] at hdom; omega
    · exact h
  have hru : alphabet.length < 4294967296 := by omega
  set radix := alphabet.length with hradix
  set u := Y.length / 2 with hu
  set S := List.foldl (unStepWith bc f.tweak (getAESKey f.key) Y.length radix)
    (Y.take u, Y.drop u) (List.range 10).reverse with hS
  have huA : (Y.take u).length = u := by
    simp [List.length_take]; omega
  have huB : (Y.drop u).length = Y.length - u := by simp
  have hSlen := foldl_unStep_lengths bc f.tweak (getAESKey f.key) Y.length radix
    (List.range 10).reverse (Y.take u, Y.drop u)
  rw [if_pos (by simp)] at hSlen
  have hS1 : S.1.length = u := by
    have := congrArg Prod.fst hSlen
    simpa [← hS, huA] using this
  have hS2 : S.2.length = Y.length - u := by
    have := congrArg Prod.snd hSlen
    simpa [← hS, huB] using this
  have hmemS := foldl_unStep_mem bc f.tweak (getAESKey f.key) Y.length radix hr hru
    (List.range 10).reverse (Y.take u, Y.drop u)
    (fun x hx => hY x (List.take_subset u Y hx))
    (fun x hx => hY x (List.drop_subset u Y hx))
  rw [← hS] at hmemS
  have hD : decryptWith bc f Y alphabet = .ok (S.1 ++ S.2) := by
    simp only [decryptWith]
    rw [if_neg hn0, if_neg (by omega), if_neg (Nat.not_lt.mpr hdom)]
  have hXlen : (S.1 ++ S.2).length = Y.length := by
    simp [hS1, hS2]; omega
  have hT : List.foldl (roundStepWith bc f.tweak (getAESKey f.key) Y.length radix)
      S (List.range 10) = (Y.take u, Y.drop u) := by
    rw [hS]
    have := foldl_unStep_inv bc f.tweak (getAESKey f.key) Y.length radix hr h16
      (List.range 10).reverse (Y.take u, Y.drop u)
      (fun x hx => hY x (List.take_subset u Y hx))
      (fun x hx => hY x (List.drop_subset u Y hx))
    rwa [List.reverse_reverse] at this
  have hE : encryptWith bc f (S.1 ++ S.2) alphabet = .ok Y := by
    simp only [encryptWith]
    rw [if_neg (by rw [hXlen]; exact hn0), if_neg (by rw [hXlen]; omega),
      if_neg (by rw [hXlen]; exact Nat.not_lt.mpr hdom)]
    rw [hXlen]
    rw [show (S.1 ++ S.2).take (Y.length / 2) = S.1 by
      rw [← hu, ← hS1]; exact List.take_left S.1 S.2]
    rw [show (S.1 ++ S.2).drop (Y.length / 2) = S.2 by
      rw [← hu, ← hS1]; exact List.drop_left S.1 S.2]
    rw [Prod.mk.eta, hT, List.take_append_drop]
  refine ⟨S.1 ++ S.2, hD, hXlen, ?_, hE⟩
  intro x hx
  rcases List.mem_append.mp hx with hx | hx
  · exact hmemS.1 x hx
  · exact hmemS.2 x hx

set_option maxRecDepth 10000 in
/-- C2 counterexample: over a 70000-character alphabet (radix 70000 > 2^16),
the valid input `[65535, 6]` (both entries below the radix, `n = 2`,
`radix^n ≥ 1000`) encrypts to `[52792, 2708]`, which decrypts to
`[49159, 91] ≠ [65535, 6]`: the `uint16` stores in the Feistel rounds wrap, so
`Decrypt` is not the inverse of `Encrypt` for radixes above 65536. -/
theorem claim_C2_cex :
    Encrypt ⟨[0x2B, 0x7E, 0x15, 0x16, 0x28, 0xAE, 0xD2, 0xA6, 0xAB, 0xF7, 0x15, 0x88,
        0x09, 0xCF, 0x4F, 0x3C], []⟩ [65535, 6] (List.replicate 70000 97) =
      .ok [52792, 2708] ∧
    Decrypt ⟨[0x2B, 0x7E, 0x15, 0x16, 0x28, 0xAE, 0xD2, 0xA6, 0xAB, 0xF7, 0x15, 0x88,
        0x09, 0xCF, 0x4F, 0x3C], []⟩ [52792, 2708] (List.replicate 70000 97) =
      .ok [49159, 91] ∧
    ([49159, 91] : List Nat) ≠ [65535, 6] ∧
    (65535 : Nat) < (List.replicate 70000 (97 : Nat)).length ∧
    (6 : Nat) < (List.replicate 70000 (97 : Nat)).length ∧
    1000 ≤ (List.replicate 70000 (97 : Nat)).length ^ 2 := by
  refine ⟨?_, ?_, by decide, by norm_num, by norm_num, by norm_num⟩
  · simp only [Encrypt, encryptWith, List.length_replicate]
    rfl
  · simp only [Decrypt, decryptWith, List.length_replicate]
    rfl

/-- C2 amended: for every alphabet of size `radix ≤ 65536` (so that numerals
fit the `uint16` element type), every key and tweak, and every length `n` with
`1 ≤ n ≤ 100000` and `radix^n ≥ 1000`, `Decrypt ∘ Encrypt` is the identity on
length-`n` sequences with entries below the radix, and `Encrypt` is a
bijection of that set onto itself with `Decrypt` as its inverse. -/
theorem claim_C2_amended (key tweak alphabet : List Nat) (n : Nat)
    (h1 : 1 ≤ n) (h2 : n ≤ 100000) (h16 : alphabet.length ≤ 65536)
    (hdom : 1000 ≤ alphabet.length ^ n) :
    (∀ X : List Nat, X.length = n → (∀ x ∈ X, x < alphabet.length) →
      ∃ Y, Encrypt ⟨key, tweak⟩ X alphabet = .ok Y ∧ Y.length = n ∧
        (∀ y ∈ Y, y < alphabet.length) ∧ Decrypt ⟨key, tweak⟩ Y alphabet = .ok X) ∧
    Set.BijOn (encMap key tweak alphabet)
      {l : List Nat | l.length = n ∧ ∀ x ∈ l, x < alphabet.length}
      {l : List Nat | l.length = n ∧ ∀ x ∈ l, x < alphabet.length} := by
  have main : ∀ X : List Nat, X.length = n → (∀ x ∈ X, x < alphabet.length) →
      ∃ Y, Encrypt ⟨key, tweak⟩ X alphabet = .ok Y ∧ Y.length = n ∧
        (∀ y ∈ Y, y < alphabet.length) ∧ Decrypt ⟨key, tweak⟩ Y alphabet = .ok X := by
    intro X hXlen hX
    have hne : X ≠ [] := by
      intro h
      rw [h] at hXlen
      simp at hXlen
      omega
    obtain ⟨Y, hE, hYl, hYm, hD⟩ := encrypt_ok_decrypt aesEncryptBlock ⟨key, tweak⟩
      X alphabet hne (by omega) (by rw [hXlen]; exact hdom) h16 hX
    exact ⟨Y, hE, hYl.trans hXlen, hYm, hD⟩
  have main2 : ∀ Y : List Nat, Y.length = n → (∀ y ∈ Y, y < alphabet.length) →
      ∃ X, Decrypt ⟨key, tweak⟩ Y alphabet = .ok X ∧ X.length = n ∧
        (∀ x ∈ X, x < alphabet.length) ∧ Encrypt ⟨key, tweak⟩ X alphabet = .ok Y := by
    intro Y hYlen hY
    have hne : Y ≠ [] := by
      intro h
      rw [h] at hYlen
      simp at hYlen
      omega
    obtain ⟨X, hD, hXl, hXm, hE⟩ := decrypt_ok_encrypt aesEncryptBlock ⟨key, tweak⟩
      Y alphabet hne (by omega) (by rw [hYlen]; exact hdom) h16 hY
    exact ⟨X, hD, hXl.trans hYlen, hXm, hE⟩
  refine ⟨main, ?_⟩
  have hmt1 : Set.MapsTo (encMap key tweak alphabet)
      {l : List Nat | l.length = n ∧ ∀ x ∈ l, x < alphabet.length}
      {l : List Nat | l.length = n ∧ ∀ x ∈ l, x < alphabet.length} := by
    intro X hX
    obtain ⟨Y, hE, hl, hm, _⟩ := main X hX.1 hX.2
    have he : encMap key tweak alphabet X = Y := by simp [encMap, hE]
    rw [Set.mem_setOf_eq, he]
    exact ⟨hl, hm⟩
  have hmt2 : Set.MapsTo (decMap key tweak alphabet)
      {l : List Nat | l.length = n ∧ ∀ x ∈ l, x < alphabet.length}
      {l : List Nat | l.length = n ∧ ∀ x ∈ l, x < alphabet.length} := by
    intro Y hY
    obtain ⟨X, hD, hl, hm, _⟩ := main2 Y hY.1 hY.2
    have hd : decMap key tweak alphabet Y = X := by simp [decMap, hD]
    rw [Set.mem_setOf_eq, hd]
    exact ⟨hl, hm⟩
  have hinv : Set.InvOn (decMap key tweak alphabet) (encMap key tweak alphabet)
      {l : List Nat | l.length = n ∧ ∀ x ∈ l, x < alphabet.length}
      {l : List Nat | l.length = n ∧ ∀ x ∈ l, x < alphabet.length} := by
    constructor
    · intro X hX
      obtain ⟨Y, hE, _, _, hD⟩ := main X hX.1 hX.2
      have he : encMap key tweak alphabet X = Y := by simp [encMap, hE]
      rw [he]
      simp [decMap, hD]
    · intro Y hY
      obtain ⟨X, hD, _, _, hE⟩ := main2 Y hY.1 hY.2
      have hd : decMap key tweak alphabet Y = X := by simp [decMap, hD]
      rw [hd]
      simp [encMap, hE]
  exact Set.InvOn.bijOn hinv hmt1 hmt2

/-- C2 witness: radix 10, `n = 4`. -/
theorem claim_C2_amended_witness :
    (∀ X : List Nat, X.length = 4 → (∀ x ∈ X, x < digitBytes.length) →
      ∃ Y, Encrypt ⟨List.replicate 16 0, []⟩ X digitBytes = .ok Y ∧ Y.length = 4 ∧
        (∀ y ∈ Y, y < digitBytes.length) ∧
        Decrypt ⟨List.replicate 16 0, []⟩ Y digitBytes = .ok X) ∧
    Set.BijOn (encMap (List.replicate 16 0) [] digitBytes)
      {l : List Nat | l.length = 4 ∧ ∀ x ∈ l, x < digitBytes.length}
      {l : List Nat | l.length = 4 ∧ ∀ x ∈ l, x < digitBytes.length} :=
  claim_C2_amended (List.replicate 16 0) [] digitBytes 4
    (by decide) (by decide) (by decide) (by decide)

/-- C9: whenever `Encrypt` or `Decrypt` succeeds on a non-empty input, every
entry of the output is strictly below the radix — the rounds reduce both final
halves modulo the radix, whatever the input entries were.  (The bound
`radix < 2^32` keeps the model of Go's `uint32(radix)` cast exact.) -/
theorem claim_C9_output_range (key tweak alphabet X Y : List Nat)
    (hne : X ≠ []) (hru : alphabet.length < 4294967296) :
    (Encrypt ⟨key, tweak⟩ X alphabet = .ok Y → ∀ y ∈ Y, y < alphabet.length) ∧
    (Decrypt ⟨key, tweak⟩ X alphabet = .ok Y → ∀ y ∈ Y, y < alphabet.length) := by
  have hn0 : ¬(X.length = 0) := fun h => hne (List.length_eq_zero.mp h)
  constructor
  · intro hok
    by_cases hl : 100000 < X.length
    · simp [Encrypt, encryptWith, hn0, hl] at hok
    by_cases hd : alphabet.length ^ X.length < 1000
    · simp [Encrypt, encryptWith, hn0, hl, hd] at hok
    have hr : 0 < alphabet.length := by
      rcases Nat.eq_zero_or_pos alphabet.length with h0 | h
      · rw [h0, Nat.zero_pow (Nat.pos_of_ne_zero hn0)] at hd; omega
      · exact h
    simp only [Encrypt, encryptWith] at hok
    rw [if_neg hn0, if_neg hl, if_neg hd] at hok
    have hY : (List.foldl (roundStepWith aesEncryptBlock tweak (getAESKey key)
        X.length alphabet.length) (X.take (X.length / 2), X.drop (X.length / 2))
        (List.range 10)).1 ++
        (List.foldl (roundStepWith aesEncryptBlock tweak (getAESKey key)
        X.length alphabet.length) (X.take (X.length / 2), X.drop (X.length / 2))
        (List.range 10)).2 = Y := by
      exact Except.ok.inj hok
    have hr10 : List.range 10 = List.range 8 ++ [8, 9] := by decide
    rw [hr10] at hY
    rw [List.foldl_append] at hY
    simp only [List.foldl_cons, List.foldl_nil] at hY
    intro y hy
    rw [← hY] at hy
    rcases List.mem_append.mp hy with hy | hy
    · rw [roundStep_fst] at hy
      exact roundStep_snd_mem aesEncryptBlock tweak (getAESKey key) X.length
        alphabet.length _ 8 hr hru y hy
    · exact roundStep_snd_mem aesEncryptBlock tweak (getAESKey key) X.length
        alphabet.length _ 9 hr hru y hy
  · intro hok
    by_cases hl : 100000 < X.length
    · simp [Decrypt, decryptWith, hn0, hl] at hok
    by_cases hd : alphabet.length ^ X.length < 1000
    · simp [Decrypt, decryptWith, hn0, hl, hd] at hok
    have hr : 0 < alphabet.length := by
      rcases Nat.eq_zero_or_pos alphabet.length with h0 | h
      · rw [h0, Nat.zero_pow (Nat.pos_of_ne_zero hn0)] at hd; omega
      · exact h
    simp only [Decrypt, decryptWith] at hok
    rw [if_neg hn0, if_neg hl, if_neg hd] at hok
    have hY : (List.foldl (unStepWith aesEncryptBlock tweak (getAESKey key)
        X.length alphabet.length) (X.take (X.length / 2), X.drop (X.length / 2))
        (List.range 10).reverse).1 ++
        (List.foldl (unStepWith aesEncryptBlock tweak (getAESKey key)
        X.length alphabet.length) (X.take (X.length / 2), X.drop (X.length / 2))
        (List.range 10).reverse).2 = Y := by
      exact Except.ok.inj hok
    have hr10 : (List.range 10).reverse = [9, 8, 7, 6, 5, 4, 3, 2] ++ [1, 0] := by decide
    rw [hr10] at hY
    rw [List.foldl_append] at hY
    simp only [List.foldl_cons, List.foldl_nil] at hY
    intro y hy
    rw [← hY] at hy
    rcases List.mem_append.mp hy with hy | hy
    · exact unStep_fst_mem aesEncryptBlock tweak (getAESKey key) X.length
        alphabet.length _ 0 hr hru y hy
    · rw [unStep_snd] at hy
      exact unStep_fst_mem aesEncryptBlock tweak (getAESKey key) X.length
        alphabet.length _ 1 hr hru y hy

/-- C9 witness: a singleton input over a 1000-character alphabet, with entry
`65535 ≥ radix`; the output entry is reduced below the radix. -/
theorem claim_C9_output_range_witness :
    (535 : Nat) < (List.replicate 1000 (97 : Nat)).length :=
  (claim_C9_output_range (List.replicate 16 0) [] (List.replicate 1000 97)
      [65535] [535] (by decide) (by norm_num)).1
    (by simp only [Encrypt, encryptWith, List.length_replicate]; rfl)
    535 (by simp)

/-! ### C6: the round function refines its specification -/

theorem numradixDecode_eq_beDigits (radix : Nat) (hr : 0 < radix) (h16 : radix ≤ 65536) :
    ∀ (m c : Nat), numradixDecode c radix m = beDigits c radix m := by
  intro m
  induction m with
  | zero => intro c; rfl
  | succ m ih =>
    intro c
    simp only [numradixDecode, beDigits, ih]
    have : c % radix % 65536 = c % radix :=
      Nat.mod_eq_of_lt (Nat.lt_of_lt_of_le (Nat.mod_lt _ hr) h16)
    rw [this]

theorem buildQArray_length_mod16 (tweak : List Nat) (i : Nat) (B : List Nat) (radix : Nat) :
    (buildQArray tweak i B radix).length % 16 = 0 := by
  simp only [buildQArray, List.length_append, List.length_replicate, List.length_cons,
    List.length_nil]
  omega

theorem append_pad16_eq (Q : List Nat) (h : Q.length % 16 = 0) :
    Q ++ List.replicate ((Q.length + 15) / 16 * 16 - Q.length) 0 = Q := by
  have hz : (Q.length + 15) / 16 * 16 - Q.length = 0 := by omega
  rw [hz]
  simp

theorem if_clamp_min (a b : Nat) : (if a < b then a else b) = min b a := by
  split <;> omega

theorem if_clamp_max (a : Nat) : (if a < 1 then 1 else a) = max a 1 := by
  split <;> omega

set_option maxRecDepth 4000 in
/-- C6 counterexample: over a 70000-character alphabet, the round function's
`uint16` digit store wraps: `feistelFunction` on `B = [17]`, round 0, output
length 1 returns `[3342]`, while the claim's formula — `y mod radix^m` written
in plain base-radix digits — gives `[68878]` (and `3342 = 68878 - 65536`). -/
theorem claim_C6_cex :
    feistelFunction ⟨[0x2B, 0x7E, 0x15, 0x16, 0x28, 0xAE, 0xD2, 0xA6, 0xAB, 0xF7,
        0x15, 0x88, 0x09, 0xCF, 0x4F, 0x3C], []⟩ [17] 0 1 1 2 70000
      [0x2B, 0x7E, 0x15, 0x16, 0x28, 0xAE, 0xD2, 0xA6, 0xAB, 0xF7,
        0x15, 0x88, 0x09, 0xCF, 0x4F, 0x3C] = [3342] ∧
    feistelSpec aesEncryptBlock
      [0x2B, 0x7E, 0x15, 0x16, 0x28, 0xAE, 0xD2, 0xA6, 0xAB, 0xF7,
        0x15, 0x88, 0x09, 0xCF, 0x4F, 0x3C] [] [17] 0 1 70000 = [68878] ∧
    ([3342] : List Nat) ≠ [68878] := by
  refine ⟨by rfl, by rfl, by decide⟩

/-- C6 amended: for every non-empty right half `B`, round index `i ≤ 9`,
output length `m`, radix with `2 ≤ radix ≤ 65536`, and an AES key of a valid
size, `feistelFunction` returns exactly the claim's formula: the `m`
big-endian base-radix digits of `y mod radix^m`, with `Q`, `R`, `d` and `y`
as the claim describes them. -/
theorem claim_C6_amended (f : FF1) (B : List Nat) (i m v n radix : Nat)
    (aesKey : List Nat) (hB : B ≠ []) (hi : i ≤ 9) (hr : 2 ≤ radix)
    (hr16 : radix ≤ 65536)
    (hkey : aesKey.length = 16 ∨ aesKey.length = 24 ∨ aesKey.length = 32) :
    feistelFunction f B i m v n radix aesKey =
      feistelSpec aesEncryptBlock aesKey f.tweak B i m radix := by
  have hBlen : ¬(B.length = 0) := fun h => hB (List.length_eq_zero.mp h)
  simp only [feistelFunction, feistelWith, feistelSpec]
  rw [if_neg hBlen, if_neg (not_not_intro hkey)]
  rw [append_pad16_eq _ (buildQArray_length_mod16 f.tweak i B radix)]
  rw [if_clamp_max, if_clamp_min]
  rw [numradixDecode_eq_beDigits radix (by omega) hr16]
  rfl

/-- C6 witness: decimal radix, `B = [1]`, round 0, output length 1. -/
theorem claim_C6_amended_witness :
    feistelFunction ⟨List.replicate 16 0, []⟩ [1] 0 1 1 2 10 (List.replicate 16 0) =
      feistelSpec aesEncryptBlock (List.replicate 16 0) [] [1] 0 1 10 :=
  claim_C6_amended ⟨List.replicate 16 0, []⟩ [1] 0 1 1 2 10 (List.replicate 16 0)
    (by decide) (by decide) (by decide) (by decide) (by simp)

/-! ### Format layer -/

theorem headD_eq_getD (l : List Nat) : l.headD 0 = l.getD 0 0 := by
  cases l <;> rfl

theorem tail_getD (l : List Nat) (i : Nat) : l.tail.getD i 0 = l.getD (i + 1) 0 := by
  cases l <;> simp [List.getD]

theorem reconstructGo_length (ms : List Bool) :
    ∀ (orig ds : List Nat), (reconstructGo ms orig ds).length = ms.length := by
  induction ms with
  | nil => intro orig ds; rfl
  | cons m ms ih =>
    intro orig ds
    cases m with
    | true => simp [reconstructGo, ih]
    | false => cases ds <;> simp [reconstructGo, ih]

theorem reconstructGo_getD_of_mask (ms : List Bool) :
    ∀ (orig ds : List Nat) (i : Nat), ms.getD i false = true →
    (reconstructGo ms orig ds).getD i 0 = orig.getD i 0 := by
  induction ms with
  | nil => intro orig ds i h; simp [List.getD] at h
  | cons m ms ih =>
    intro orig ds i h
    cases i with
    | zero =>
      simp only [List.getD_cons_zero] at h
      subst h
      cases orig <;> rfl
    | succ i =>
      simp only [List.getD_cons_succ] at h
      cases m with
      | true =>
        simp only [reconstructGo, List.getD_cons_succ]
        rw [ih orig.tail ds i h, tail_getD]
      | false =>
        cases ds with
        | nil =>
          simp only [reconstructGo, List.getD_cons_succ]
          rw [ih orig.tail [] i h, tail_getD]
        | cons d ds =>
          simp only [reconstructGo, List.getD_cons_succ]
          rw [ih orig.tail ds i h, tail_getD]

theorem DetermineAlphabet_ne_nil (s : List Nat) : DetermineAlphabet s ≠ [] := by
  unfold DetermineAlphabet
  by_cases hd : s.any isDigitByte <;> by_cases hl : s.any isLetterByte <;>
    simp [hd, hl, digitBytes, letterBytes]

theorem DetermineAlphabet_length_ne (s : List Nat) :
    ¬((DetermineAlphabet s).length = 0) :=
  fun h => DetermineAlphabet_ne_nil s (List.length_eq_zero.mp h)

/-- C5: whenever `Tokenize` succeeds, the output has the same byte length as
the input, and every format-mask position of the input is byte-identical in
the output; only data positions can differ. -/
theorem claim_C5_format_preserved (f : FF1) (p tok : List Nat)
    (hok : Tokenize f p = .ok tok) :
    tok.length = p.length ∧
    ∀ i : Nat, (SeparateFormatAndData p).1.getD i false = true →
      tok.getD i 0 = p.getD i 0 := by
  simp only [Tokenize] at hok
  rw [if_neg (DetermineAlphabet_length_ne _)] at hok
  cases hE : Encrypt f
      (StringToNumeric (SeparateFormatAndData p).2
        (DetermineAlphabet (SeparateFormatAndData p).2))
      (DetermineAlphabet (SeparateFormatAndData p).2) with
  | error e => rw [hE] at hok; exact absurd hok (by simp)
  | ok Ynum =>
    rw [hE] at hok
    have htok : ReconstructWithFormat
        (NumericToString Ynum (DetermineAlphabet (SeparateFormatAndData p).2)
          (SeparateFormatAndData p).2.length)
        (SeparateFormatAndData p).1 p = tok := Except.ok.inj hok
    rw [← htok]
    constructor
    · rw [ReconstructWithFormat, reconstructGo_length]
      simp [SeparateFormatAndData]
    · intro i hi
      rw [ReconstructWithFormat, reconstructGo_getD_of_mask _ _ _ _ hi]

/-- C5 witness: the SSN-format plaintext `"123-45-6789"`. -/
theorem claim_C5_format_preserved_witness :
    ((Tokenize ⟨List.replicate 16 0, []⟩
        [49, 50, 51, 45, 52, 53, 45, 54, 55, 56, 57]).toOption.getD []).length =
      [49, 50, 51, 45, 52, 53, 45, 54, 55, 56, 57].length ∧
    ∀ i : Nat,
      (SeparateFormatAndData [49, 50, 51, 45, 52, 53, 45, 54, 55, 56, 57]).1.getD i false =
        true →
      ((Tokenize ⟨List.replicate 16 0, []⟩
          [49, 50, 51, 45, 52, 53, 45, 54, 55, 56, 57]).toOption.getD []).getD i 0 =
        [49, 50, 51, 45, 52, 53, 45, 54, 55, 56, 57].getD i 0 :=
  claim_C5_format_preserved ⟨List.replicate 16 0, []⟩
    [49, 50, 51, 45, 52, 53, 45, 54, 55, 56, 57] _ rfl

theorem detok_alphabet_ne (t op al : List Nat) :
    ¬((if al = [] then
        (if op ≠ [] then DetermineAlphabet (SeparateFormatAndData op).2
         else DetermineAlphabet (SeparateFormatAndData t).2)
       else al).length = 0) := by
  intro hh
  have hnil := List.length_eq_zero.mp hh
  revert hnil
  split_ifs with h1 h2
  · exact DetermineAlphabet_ne_nil _
  · exact DetermineAlphabet_ne_nil _
  · exact h1

/-- C10: `DetermineAlphabet` always returns a non-empty alphabet (defaulting
to the digits), so the "no valid alphabet found" branches of `Tokenize` and
`Detokenize` are unreachable: every error either function returns is an error
propagated from the core `Encrypt`/`Decrypt`. -/
theorem claim_C10_no_alphabet_error :
    (∀ s : List Nat, DetermineAlphabet s ≠ []) ∧
    (∀ (f : FF1) (p : List Nat) (e : TokError), Tokenize f p = .error e →
      ∃ ce : FF1Error, e = .core ce) ∧
    (∀ (f : FF1) (t op al : List Nat) (e : TokError), Detokenize f t op al = .error e →
      ∃ ce : FF1Error, e = .core ce) := by
  refine ⟨DetermineAlphabet_ne_nil, ?_, ?_⟩
  · intro f p e h
    simp only [Tokenize] at h
    rw [if_neg (DetermineAlphabet_length_ne _)] at h
    cases hE : Encrypt f
        (StringToNumeric (SeparateFormatAndData p).2
          (DetermineAlphabet (SeparateFormatAndData p).2))
        (DetermineAlphabet (SeparateFormatAndData p).2) with
    | error ce => rw [hE] at h; exact ⟨ce, (Except.error.inj h).symm⟩
    | ok y => rw [hE] at h; exact absurd h (by simp)
  · intro f t op al e h
    simp only [Detokenize] at h
    rw [if_neg (detok_alphabet_ne t op al)] at h
    cases hD : Decrypt f
        (StringToNumeric (SeparateFormatAndData t).2
          (if al = [] then
            (if op ≠ [] then DetermineAlphabet (SeparateFormatAndData op).2
             else DetermineAlphabet (SeparateFormatAndData t).2)
           else al))
        (if al = [] then
          (if op ≠ [] then DetermineAlphabet (SeparateFormatAndData op).2
           else DetermineAlphabet (SeparateFormatAndData t).2)
         else al) with
    | error ce => rw [hD] at h; exact ⟨ce, (Except.error.inj h).symm⟩
    | ok y => rw [hD] at h; exact absurd h (by simp)

/-- C10 witness: a two-digit plaintext fails, and the error is a propagated
core error (the domain guard), not the alphabet error. -/
theorem claim_C10_no_alphabet_error_witness :
    ∃ ce : FF1Error, TokError.core FF1Error.domainTooSmall = TokError.core ce :=
  claim_C10_no_alphabet_error.2.1 ⟨List.replicate 16 0, []⟩ [49, 50]
    (.core .domainTooSmall) rfl

/-! ### Alphabet lookup and numeral/string conversions -/

theorem lookupLast_isSome (alphabet : List Nat) (ch : Nat) (h : ch ∈ alphabet) :
    ∀ i, ∃ j, lookupLast alphabet ch i = some j := by
  induction alphabet with
  | nil => cases h
  | cons a rest ih =>
    intro i
    rcases List.mem_cons.mp h with rfl | hmem
    · cases hrec : lookupLast rest ch (i + 1) with
      | some j => exact ⟨j, by simp [lookupLast, hrec]⟩
      | none => exact ⟨i, by simp [lookupLast, hrec]⟩
    · obtain ⟨j, hj⟩ := ih hmem (i + 1)
      exact ⟨j, by simp [lookupLast, hj]⟩

theorem lookupLast_spec (alphabet : List Nat) (ch : Nat) :
    ∀ i j, lookupLast alphabet ch i = some j →
      i ≤ j ∧ j - i < alphabet.length ∧ alphabet.getD (j - i) 0 = ch := by
  induction alphabet with
  | nil => intro i j h; simp [lookupLast] at h
  | cons a rest ih =>
    intro i j h
    simp only [lookupLast] at h
    cases hrec : lookupLast rest ch (i + 1) with
    | some j2 =>
      rw [hrec] at h
      have hjj : j2 = j := Option.some.inj h
      obtain ⟨h1, h2, h3⟩ := ih (i + 1) j2 hrec
      subst hjj
      refine ⟨by omega, by simp [List.length_cons]; omega, ?_⟩
      have he : j2 - i = (j2 - (i + 1)) + 1 := by omega
      rw [he, List.getD_cons_succ]
      exact h3
    | none =>
      rw [hrec] at h
      by_cases ha : a = ch
      · rw [if_pos ha] at h
        obtain rfl : i = j := Option.some.inj h
        simpa using ha
      · rw [if_neg ha] at h
        cases h

theorem lookupLast_not_mem (alphabet : List Nat) (ch : Nat) (h : ch ∉ alphabet) :
    ∀ i, lookupLast alphabet ch i = none := by
  induction alphabet with
  | nil => intro i; rfl
  | cons a rest ih =>
    intro i
    have hne : ¬(a = ch) := fun he => h (he ▸ List.mem_cons_self a rest)
    have hrest : ch ∉ rest := fun hm => h (List.mem_cons_of_mem a hm)
    simp [lookupLast, ih hrest, hne]

theorem lookupLast_nodup (alphabet : List Nat) (hnd : alphabet.Nodup) :
    ∀ (k i : Nat), k < alphabet.length →
      lookupLast alphabet (alphabet.getD k 0) i = some (i + k) := by
  induction alphabet with
  | nil => intro k i hk; simp at hk
  | cons a rest ih =>
    intro k i hk
    cases k with
    | zero =>
      have hnotin : a ∉ rest := (List.nodup_cons.mp hnd).1
      simp only [List.getD_cons_zero, lookupLast,
        lookupLast_not_mem rest a hnotin (i + 1)]
      simp
    | succ k =>
      have hrest : rest.Nodup := (List.nodup_cons.mp hnd).2
      have hk2 : k < rest.length := by simpa using hk
      simp only [List.getD_cons_succ, lookupLast, ih hrest k (i + 1) hk2]
      congr 1
      omega

theorem stringToNumeric_length (s alphabet : List Nat) :
    (StringToNumeric s alphabet).length = s.length := by
  simp [StringToNumeric]

theorem stringToNumeric_lt (s alphabet : List Nat) (hα : alphabet ≠ []) :
    ∀ x ∈ StringToNumeric s alphabet, x < alphabet.length := by
  intro x hx
  simp only [StringToNumeric, List.mem_map] at hx
  obtain ⟨ch, _, rfl⟩ := hx
  cases hl : lookupLast alphabet ch 0 with
  | none => simpa [hl] using List.length_pos.mpr hα
  | some j =>
    obtain ⟨_, h2, _⟩ := lookupLast_spec alphabet ch 0 j hl
    simp only [Option.getD_some]
    omega

theorem numericToString_self_length (ν alphabet : List Nat) :
    NumericToString ν alphabet ν.length = ν.map (charOfNumeral alphabet) := by
  apply List.ext_getElem
  · simp [NumericToString]
  · intro j hj1 hj2
    have hj : j < ν.length := by simpa using hj2
    simp [NumericToString, hj]

theorem stringToNumeric_numericToString (ν alphabet : List Nat) (hnd : alphabet.Nodup)
    (hν : ∀ y ∈ ν, y < alphabet.length) :
    StringToNumeric (NumericToString ν alphabet ν.length) alphabet = ν := by
  rw [numericToString_self_length, StringToNumeric, List.map_map]
  have hpt : ∀ y ∈ ν,
      ((fun ch => (lookupLast alphabet ch 0).getD 0) ∘ charOfNumeral alphabet) y = id y := by
    intro y hy
    have hylt := hν y hy
    simp only [Function.comp_apply, charOfNumeral, if_pos hylt, id_eq]
    rw [lookupLast_nodup alphabet hnd y 0 hylt]
    simp
  rw [List.map_congr_left hpt, List.map_id]

theorem numericToString_stringToNumeric (data alphabet : List Nat)
    (hmem : ∀ b ∈ data, b ∈ alphabet) :
    NumericToString (StringToNumeric data alphabet) alphabet data.length = data := by
  have hlen : data.length = (StringToNumeric data alphabet).length :=
    (stringToNumeric_length data alphabet).symm
  rw [hlen, numericToString_self_length, StringToNumeric, List.map_map]
  have hpt : ∀ b ∈ data,
      (charOfNumeral alphabet ∘ fun ch => (lookupLast alphabet ch 0).getD 0) b = id b := by
    intro b hb
    cases hl : lookupLast alphabet b 0 with
    | none =>
      obtain ⟨j, hj⟩ := lookupLast_isSome alphabet b (hmem b hb) 0
      rw [hl] at hj
      cases hj
    | some j =>
      obtain ⟨_, h2, h3⟩ := lookupLast_spec alphabet b 0 j hl
      simp only [Function.comp_apply, hl, Option.getD_some, charOfNumeral, id_eq]
      rw [if_pos (by omega)]
      simpa using h3
  rw [List.map_congr_left hpt, List.map_id]

/-! ### Alphabet coverage and the split/reconstruct round trip -/

theorem isDigit_mem_digitBytes (b : Nat) (h : isDigitByte b = true) : b ∈ digitBytes := by
  simp only [isDigitByte, decide_eq_true_eq] at h
  simp only [digitBytes, List.mem_cons, List.mem_singleton]
  omega

theorem isLetter_mem_letterBytes (b : Nat) (h : isLetterByte b = true) : b ∈ letterBytes := by
  simp only [isLetterByte, decide_eq_true_eq] at h
  simp only [letterBytes, List.mem_cons, List.mem_singleton]
  omega

theorem isAlnum_cases (b : Nat) (h : isAlnumByte b = true) :
    isDigitByte b = true ∨ isLetterByte b = true := by
  simp only [isAlnumByte, decide_eq_true_eq] at h
  simp only [isDigitByte, isLetterByte, decide_eq_true_eq]
  omega

theorem alnum_mem_DetermineAlphabet (s : List Nat) (b : Nat) (hb : b ∈ s)
    (ha : isAlnumByte b = true) : b ∈ DetermineAlphabet s := by
  have hcase := isAlnum_cases b ha
  unfold DetermineAlphabet
  by_cases hd : s.any isDigitByte = true
  · by_cases hl : s.any isLetterByte = true
    · rw [if_pos hd, if_pos hl, if_neg (by decide : ¬(digitBytes ++ letterBytes = []))]
      rcases hcase with h | h
      · exact List.mem_append_left _ (isDigit_mem_digitBytes b h)
      · exact List.mem_append_right _ (isLetter_mem_letterBytes b h)
    · rw [if_pos hd, if_neg hl,
        if_neg (by decide : ¬(digitBytes ++ ([] : List Nat) = []))]
      rcases hcase with h | h
      · exact List.mem_append_left _ (isDigit_mem_digitBytes b h)
      · exact absurd (List.any_eq_true.mpr ⟨b, hb, h⟩) hl
  · by_cases hl : s.any isLetterByte = true
    · rw [if_neg hd, if_pos hl,
        if_neg (by decide : ¬(([] : List Nat) ++ letterBytes = []))]
      rcases hcase with h | h
      · exact absurd (List.any_eq_true.mpr ⟨b, hb, h⟩) hd
      · exact List.mem_append_right _ (isLetter_mem_letterBytes b h)
    · rcases hcase with h | h
      · exact absurd (List.any_eq_true.mpr ⟨b, hb, h⟩) hd
      · exact absurd (List.any_eq_true.mpr ⟨b, hb, h⟩) hl

theorem DetermineAlphabet_nodup (s : List Nat) : (DetermineAlphabet s).Nodup := by
  unfold DetermineAlphabet
  by_cases hd : s.any isDigitByte <;> by_cases hl : s.any isLetterByte <;>
    simp only [hd, hl, if_true, if_false] <;> split <;> decide

theorem DetermineAlphabet_alnum (s : List Nat) :
    ∀ b ∈ DetermineAlphabet s, isAlnumByte b = true := by
  unfold DetermineAlphabet
  by_cases hd : s.any isDigitByte <;> by_cases hl : s.any isLetterByte <;>
    simp only [hd, hl, if_true, if_false] <;> split <;> decide

theorem DetermineAlphabet_length_le (s : List Nat) : (DetermineAlphabet s).length ≤ 62 := by
  unfold DetermineAlphabet
  by_cases hd : s.any isDigitByte <;> by_cases hl : s.any isLetterByte <;>
    simp only [hd, hl, if_true, if_false] <;> split <;> decide

/-- Splitting the reconstructed string recovers the mask and the data: the
reconstruction of alphanumeric data bytes into the format skeleton of `p` has
the same format mask as `p`, and its data bytes are exactly the injected
ones. -/
theorem separate_reconstruct (p : List Nat) :
    ∀ td : List Nat, (∀ b ∈ td, isAlnumByte b = true) →
    td.length = (p.filter isAlnumByte).length →
    (reconstructGo (p.map (fun b => !isAlnumByte b)) p td).map (fun b => !isAlnumByte b) =
      p.map (fun b => !isAlnumByte b) ∧
    (reconstructGo (p.map (fun b => !isAlnumByte b)) p td).filter isAlnumByte = td := by
  induction p with
  | nil =>
    intro td _ hlen
    have : td = [] := List.length_eq_zero.mp (by simpa using hlen)
    subst this
    exact ⟨rfl, rfl⟩
  | cons b p ih =>
    intro td htd hlen
    by_cases hb : isAlnumByte b = true
    · cases td with
      | nil =>
        rw [List.filter_cons_of_pos hb] at hlen
        simp at hlen
      | cons t ts =>
        have ht : isAlnumByte t = true := htd t (List.mem_cons_self t ts)
        have hts : ∀ x ∈ ts, isAlnumByte x = true :=
          fun x hx => htd x (List.mem_cons_of_mem t hx)
        have hlen2 : ts.length = (p.filter isAlnumByte).length := by
          rw [List.filter_cons_of_pos hb] at hlen
          simpa using hlen
        obtain ⟨ih1, ih2⟩ := ih ts hts hlen2
        constructor
        · simp only [List.map_cons, hb, Bool.not_true, reconstructGo, List.tail_cons]
          simp [ht, ih1]
        · simp only [List.map_cons, hb, Bool.not_true, reconstructGo, List.tail_cons]
          simp [List.filter_cons, ht, ih2]
    · have hbf : isAlnumByte b = false := Bool.not_eq_true _ |>.mp hb
      have hlen2 : td.length = (p.filter isAlnumByte).length := by
        rw [List.filter_cons_of_neg (by simp [hbf])] at hlen
        exact hlen
      obtain ⟨ih1, ih2⟩ := ih td htd hlen2
      constructor
      · simp only [List.map_cons, hbf, Bool.not_false, reconstructGo, List.headD_cons,
          List.tail_cons]
        simp [hbf, ih1]
      · simp only [List.map_cons, hbf, Bool.not_false, reconstructGo, List.headD_cons,
          List.tail_cons]
        simp [List.filter_cons, hbf, ih2]

/-- Reconstructing the original data bytes into the tokenized string's format
skeleton recovers the original string. -/
theorem reconstruct_roundtrip (p : List Nat) :
    ∀ td : List Nat, (∀ b ∈ td, isAlnumByte b = true) →
    td.length = (p.filter isAlnumByte).length →
    reconstructGo (p.map (fun b => !isAlnumByte b))
      (reconstructGo (p.map (fun b => !isAlnumByte b)) p td)
      (p.filter isAlnumByte) = p := by
  induction p with
  | nil => intro td _ _; rfl
  | cons b p ih =>
    intro td htd hlen
    by_cases hb : isAlnumByte b = true
    · cases td with
      | nil =>
        rw [List.filter_cons_of_pos hb] at hlen
        simp at hlen
      | cons t ts =>
        have hts : ∀ x ∈ ts, isAlnumByte x = true :=
          fun x hx => htd x (List.mem_cons_of_mem t hx)
        have hlen2 : ts.length = (p.filter isAlnumByte).length := by
          rw [List.filter_cons_of_pos hb] at hlen
          simpa using hlen
        simp only [List.map_cons, hb, Bool.not_true, reconstructGo, List.tail_cons,
          List.filter_cons_of_pos hb]
        rw [ih ts hts hlen2]
    · have hbf : isAlnumByte b = false := Bool.not_eq_true _ |>.mp hb
      have hlen2 : td.length = (p.filter isAlnumByte).length := by
        rw [List.filter_cons_of_neg (by simp [hbf])] at hlen
        exact hlen
      simp only [List.map_cons, hbf, Bool.not_false, reconstructGo, List.headD_cons,
        List.tail_cons, List.filter_cons_of_neg (by simp [hbf] : ¬(isAlnumByte b = true))]
      rw [ih td htd hlen2]

theorem numericToString_length (ν alphabet : List Nat) (len : Nat) :
    (NumericToString ν alphabet len).length = len := by
  simp [NumericToString]

theorem getD_mem_of_lt (l : List Nat) (i : Nat) (h : i < l.length) : l.getD i 0 ∈ l := by
  rw [List.getD_eq_getElem l 0 h]
  exact List.getElem_mem h

theorem charOfNumeral_mem (alphabet : List Nat) (v : Nat) (hne : alphabet ≠ []) :
    charOfNumeral alphabet v ∈ alphabet := by
  have hpos : 0 < alphabet.length := List.length_pos.mpr hne
  unfold charOfNumeral
  split
  · exact getD_mem_of_lt alphabet v (by assumption)
  · exact getD_mem_of_lt alphabet 0 hpos

/-- C1: for every key, tweak and plaintext on which `Tokenize` succeeds,
`Detokenize` applied to the token with the original plaintext as hint and no
explicit alphabet returns exactly the original plaintext. -/
theorem claim_C1_roundtrip (key tweak p tok : List Nat)
    (hok : Tokenize ⟨key, tweak⟩ p = .ok tok) :
    Detokenize ⟨key, tweak⟩ tok p [] = .ok p := by
  by_cases hp : p = []
  · subst hp
    have h0 : Tokenize ⟨key, tweak⟩ ([] : List Nat) = .ok [] := rfl
    rw [h0] at hok
    obtain rfl : ([] : List Nat) = tok := Except.ok.inj hok
    rfl
  -- notation for the pieces of the tokenize path
  have hsep1 : (SeparateFormatAndData p).1 = p.map (fun b => !isAlnumByte b) := rfl
  have hsep2 : (SeparateFormatAndData p).2 = p.filter isAlnumByte := rfl
  simp only [Tokenize] at hok
  rw [if_neg (DetermineAlphabet_length_ne _)] at hok
  set data := p.filter isAlnumByte with hdata
  rw [hsep2] at hok
  set alph := DetermineAlphabet data with halph
  set X := StringToNumeric data alph with hX
  cases hE : Encrypt ⟨key, tweak⟩ X alph with
  | error e =>
    rw [hE] at hok
    exact absurd hok (by simp)
  | ok Ynum =>
    rw [hE] at hok
    have htok : ReconstructWithFormat (NumericToString Ynum alph data.length)
        (SeparateFormatAndData p).1 p = tok := Except.ok.inj hok
    have hXdata : X.length = data.length := stringToNumeric_length data alph
    have halphne : alph ≠ [] := DetermineAlphabet_ne_nil data
    -- core facts: decryption inverts, output length and range
    have hcore : Decrypt ⟨key, tweak⟩ Ynum alph = .ok X ∧ Ynum.length = data.length ∧
        (∀ y ∈ Ynum, y < alph.length) := by
      by_cases hXnil : X = []
      · have hE0 : Encrypt ⟨key, tweak⟩ X alph = .ok X := by
          rw [hXnil]; rfl
        have hYX : Ynum = X := (Except.ok.inj (hE0.symm.trans hE)).symm
        rw [hYX, hXnil]
        refine ⟨rfl, by rw [← hXnil, hXdata], by simp⟩
      · have hn0 : ¬(X.length = 0) := fun h => hXnil (List.length_eq_zero.mp h)
        by_cases hl : 100000 < X.length
        · rw [show Encrypt ⟨key, tweak⟩ X alph = .error .inputTooLong from by
            simp [Encrypt, encryptWith, hn0, hl]] at hE
          cases hE
        by_cases hdm : alph.length ^ X.length < 1000
        · rw [show Encrypt ⟨key, tweak⟩ X alph = .error .domainTooSmall from by
            simp [Encrypt, encryptWith, hn0, hl, hdm]] at hE
          cases hE
        have h16 : alph.length ≤ 65536 :=
          le_trans (DetermineAlphabet_length_le data) (by omega)
        have hXmem : ∀ x ∈ X, x < alph.length := stringToNumeric_lt data alph halphne
        obtain ⟨Y2, hE2, hlen2, hmem2, hD2⟩ :=
          encrypt_ok_decrypt aesEncryptBlock ⟨key, tweak⟩ X alph hXnil
            (Nat.not_lt.mp hl) (Nat.not_lt.mp hdm) h16 hXmem
        have hE2' : Encrypt ⟨key, tweak⟩ X alph = .ok Y2 := hE2
        have hYeq : Y2 = Ynum := Except.ok.inj (hE2'.symm.trans hE)
        rw [← hYeq]
        exact ⟨hD2, by rw [hlen2, hXdata], hmem2⟩
    obtain ⟨hD, hYdlen, hYmem⟩ := hcore
    -- token data bytes are alphabet characters, hence alphanumeric
    have htd_alnum : ∀ b ∈ NumericToString Ynum alph data.length, isAlnumByte b = true := by
      intro b hb
      rw [← hYdlen, numericToString_self_length] at hb
      obtain ⟨y, _, rfl⟩ := List.mem_map.mp hb
      exact DetermineAlphabet_alnum data _ (charOfNumeral_mem alph y halphne)
    have htd_len : (NumericToString Ynum alph data.length).length =
        (p.filter isAlnumByte).length := by
      rw [numericToString_length]
    have htok' : tok = reconstructGo (p.map (fun b => !isAlnumByte b)) p
        (NumericToString Ynum alph data.length) := by
      rw [← htok, hsep1]
      rfl
    have hsep := separate_reconstruct p (NumericToString Ynum alph data.length)
      htd_alnum htd_len
    -- the token splits back into the same mask and the injected data
    have hmask' : (SeparateFormatAndData tok).1 = p.map (fun b => !isAlnumByte b) := by
      show tok.map (fun b => !isAlnumByte b) = _
      rw [htok']
      exact hsep.1
    have hdata' : (SeparateFormatAndData tok).2 = NumericToString Ynum alph data.length := by
      show tok.filter isAlnumByte = _
      rw [htok']
      exact hsep.2
    -- the alphabet Detokenize selects is the tokenize-time alphabet
    have hselp : (SeparateFormatAndData p).2 = data := hsep2
    -- now compute Detokenize
    have hstn : StringToNumeric (NumericToString Ynum alph data.length) alph = Ynum := by
      rw [← hYdlen]
      exact stringToNumeric_numericToString Ynum alph (DetermineAlphabet_nodup data) hYmem
    have hnts : NumericToString X alph data.length = data := by
      rw [hX]
      exact numericToString_stringToNumeric data alph
        (fun b hb => alnum_mem_DetermineAlphabet data b hb
          (List.of_mem_filter (hdata ▸ hb)))
    have hfinal : reconstructGo (p.map (fun b => !isAlnumByte b)) tok data = p := by
      rw [htok', hdata]
      exact reconstruct_roundtrip p (NumericToString Ynum alph data.length)
        htd_alnum htd_len
    simp only [Detokenize, if_true]
    rw [if_pos hp]
    rw [hselp, ← halph]
    rw [if_neg (fun h => halphne (List.length_eq_zero.mp h))]
    rw [hdata', hstn, hD]
    show Except.ok (ReconstructWithFormat
      (NumericToString X alph (NumericToString Ynum alph data.length).length)
      (SeparateFormatAndData tok).1 tok) = Except.ok p
    rw [numericToString_length, hnts, ReconstructWithFormat, hmask', hfinal]


/-- C1 witness: the SSN-format plaintext round-trips through
`Tokenize`/`Detokenize`. -/
theorem claim_C1_roundtrip_witness :
    Detokenize ⟨List.replicate 16 0, []⟩
      ((Tokenize ⟨List.replicate 16 0, []⟩
          [49, 50, 51, 45, 52, 53, 45, 54, 55, 56, 57]).toOption.getD [])
      [49, 50, 51, 45, 52, 53, 45, 54, 55, 56, 57] [] =
      .ok [49, 50, 51, 45, 52, 53, 45, 54, 55, 56, 57] :=
  claim_C1_roundtrip (List.replicate 16 0) []
    [49, 50, 51, 45, 52, 53, 45, 54, 55, 56, 57] _ rfl

/-- C7: For every alphabet (any radix, including one whose size makes
`radix^0 = 1 < 1000`), `Encrypt` and `Decrypt` applied to the empty numeral
sequence return the empty sequence with no error: the empty-input case
bypasses both the input-length guard and the domain-size guard. -/
theorem claim_C7_empty_input (key tweak alphabet : List Nat) :
    Encrypt ⟨key, tweak⟩ [] alphabet = .ok [] ∧
    Decrypt ⟨key, tweak⟩ [] alphabet = .ok [] :=
  ⟨rfl, rfl⟩

/-- C3 counterexample: construction with a 17-byte key succeeds, contradicting
the claim that any key length other than 16, 24 or 32 bytes is rejected. -/
theorem claim_C3_cex : (NewFF1 (List.replicate 17 0) []).isSome = true := by decide

/-- C3 amended: `NewFF1` succeeds exactly for keys of at least 16 bytes (so a
15-byte key is rejected but a 17-byte key is accepted), and an accepted key of
a length strictly between 16 and 24 bytes is silently truncated to its first
16 bytes by `getAESKey`. -/
theorem claim_C3_amended (key tweak : List Nat) :
    ((NewFF1 key tweak).isSome ↔ 16 ≤ key.length) ∧
    (16 < key.length → key.length < 24 → getAESKey key = key.take 16) ∧
    (key.length < 16 → NewFF1 key tweak = none) := by
  refine ⟨?_, ?_, ?_⟩
  · unfold NewFF1
    split <;> simp <;> omega
  · intro ha hb
    unfold getAESKey
    rw [if_neg (by omega), if_neg (by omega), if_pos hb]
  · intro h
    unfold NewFF1
    rw [if_pos h]

/-- C3 witness: the amended statement applied to concrete 15- and 17-byte keys. -/
theorem claim_C3_amended_witness :
    NewFF1 (List.replicate 15 0) [] = none ∧
    getAESKey (List.replicate 17 0) = (List.replicate 17 (0 : Nat)).take 16 :=
  ⟨(claim_C3_amended (List.replicate 15 0) []).2.2 (by decide),
   (claim_C3_amended (List.replicate 17 0) []).2.1 (by decide) (by decide)⟩

/-- C8 counterexample: `Encrypt` with radix 10 on a length-3 input succeeds
(domain size `10^3 = 1000` passes the `≥ 1000` guard), contradicting the claim
that every such call fails with `DomainTooSmall`. -/
theorem claim_C8_cex :
    exceptIsOk (Encrypt ⟨List.replicate 16 0, []⟩ [0, 0, 0] digitBytes) = true := rfl

/-- C8 amended: for radix 10, `Encrypt` applied to every numeral sequence of
length 3 succeeds — the boundary domain size `10^3 = 1000` is accepted by the
`≥ 1000` domain guard, not rejected. -/
theorem claim_C8_amended (key tweak X : List Nat) (h : X.length = 3) :
    exceptIsOk (Encrypt ⟨key, tweak⟩ X digitBytes) = true := by
  have hr : digitBytes.length = 10 := rfl
  simp only [Encrypt, encryptWith, hr, h]
  norm_num [exceptIsOk]

/-- C8 witness. -/
theorem claim_C8_amended_witness :
    exceptIsOk (Encrypt ⟨List.replicate 16 0, []⟩ [1, 2, 3] digitBytes) = true :=
  claim_C8_amended (List.replicate 16 0) [] [1, 2, 3] rfl

/-- C4: for non-empty inputs within the length bound, `Encrypt` and `Decrypt`
fail with the domain-size error exactly when `radix^n < 1000`, and on such
inputs the result does not depend on the block cipher at all (the rejection
happens before any AES work). -/
theorem claim_C4_domain_guard (key tweak alphabet X : List Nat)
    (h1 : X ≠ []) (h2 : X.length ≤ 100000) :
    (Encrypt ⟨key, tweak⟩ X alphabet = .error .domainTooSmall ↔
      alphabet.length ^ X.length < 1000) ∧
    (Decrypt ⟨key, tweak⟩ X alphabet = .error .domainTooSmall ↔
      alphabet.length ^ X.length < 1000) ∧
    (∀ bc bc2, alphabet.length ^ X.length < 1000 →
      encryptWith bc ⟨key, tweak⟩ X alphabet = encryptWith bc2 ⟨key, tweak⟩ X alphabet ∧
      decryptWith bc ⟨key, tweak⟩ X alphabet = decryptWith bc2 ⟨key, tweak⟩ X alphabet) := by
  have h0 : ¬(X.length = 0) := fun hh => h1 (List.length_eq_zero.mp hh)
  have h2' : ¬(100000 < X.length) := by omega
  by_cases hd : alphabet.length ^ X.length < 1000
  · refine ⟨?_, ?_, ?_⟩
    · simp [Encrypt, encryptWith, h0, h2', hd]
    · simp [Decrypt, decryptWith, h0, h2', hd]
    · intro bc bc2 _
      constructor
      · simp [encryptWith, h0, h2', hd]
      · simp [decryptWith, h0, h2', hd]
  · refine ⟨?_, ?_, ?_⟩
    · simp [Encrypt, encryptWith, h0, h2', hd]
    · simp [Decrypt, decryptWith, h0, h2', hd]
    · intro bc bc2 hcontra
      exact absurd hcontra hd

/-- C4 witness: radix 10, length 2 (domain 100 < 1000). -/
theorem claim_C4_domain_guard_witness :
    (Encrypt ⟨List.replicate 16 0, []⟩ [1, 2] digitBytes = .error .domainTooSmall ↔
      digitBytes.length ^ [1, 2].length < 1000) ∧
    (Decrypt ⟨List.replicate 16 0, []⟩ [1, 2] digitBytes = .error .domainTooSmall ↔
      digitBytes.length ^ [1, 2].length < 1000) ∧
    (∀ bc bc2, digitBytes.length ^ [1, 2].length < 1000 →
      encryptWith bc ⟨List.replicate 16 0, []⟩ [1, 2] digitBytes =
        encryptWith bc2 ⟨List.replicate 16 0, []⟩ [1, 2] digitBytes ∧
      decryptWith bc ⟨List.replicate 16 0, []⟩ [1, 2] digitBytes =
        decryptWith bc2 ⟨List.replicate 16 0, []⟩ [1, 2] digitBytes) :=
  claim_C4_domain_guard (List.replicate 16 0) [] digitBytes [1, 2] (by decide) (by decide)

end FPE

-- Validation of the AES embedding against the FIPS-197 Appendix C vectors.
example : FPE.aesEncryptBlock
  [0,1,2,3,4,5,6,7,8,9,10,11,12,13,14,15]
  [0x00,0x11,0x22,0x33,0x44,0x55,0x66,0x77,0x88,0x99,0xaa,0xbb,0xcc,0xdd,0xee,0xff] =
  [0x69,0xc4,0xe0,0xd8,0x6a,0x7b,0x04,0x30,0xd8,0xcd,0xb7,0x80,0x70,0xb4,0xc5,0x5a] := by decide

example : FPE.aesEncryptBlock
  [0,1,2,3,4,5,6,7,8,9,10,11,12,13,14,15,16,17,18,19,20,21,22,23]
  [0x00,0x11,0x22,0x33,0x44,0x55,0x66,0x77,0x88,0x99,0xaa,0xbb,0xcc,0xdd,0xee,0xff] =
  [0xdd,0xa9,0x7c,0xa4,0x86,0x4c,0xdf,0xe0,0x6e,0xaf,0x70,0xa0,0xec,0x0d,0x71,0x91] := by decide

example : FPE.aesEncryptBlock
  [0,1,2,3,4,5,6,7,8,9,10,11,12,13,14,15,16,17,18,19,20,21,22,23,24,25,26,27,28,29,30,31]
  [0x00,0x11,0x22,0x33,0x44,0x55,0x66,0x77,0x88,0x99,0xaa,0xbb,0xcc,0xdd,0xee,0xff] =
  [0x8e,0xa2,0xb7,0xca,0x51,0x67,0x45,0xbf,0xea,0xfc,0x49,0x90,0x4b,0x49,0x60,0x89] := by decide
